import Mathlib

/-!
Verification of the WorkTwins Snapshot & Aggregation Engine.

This file is a shallow embedding, in Lean 4, of the core of the repository:

* `com_worktwins_shooter/SnapshotGenerator.py` — the per-project scanner
  (file classification, import extraction, language detection, snapshot data);
* `com_worktwins_data_sources/WorkTwinsDataSource.py` — the snapshot
  aggregator (`aggregate_snapshots`) and the progress-reporting loop of
  `generate_json_report`.

Python dictionaries preserve insertion order, so they are modelled as
insertion-ordered association lists.  File-system walks, file reads and JSON
parsing are modelled by passing the walk results (resp. parse results) as
explicit lists: a file whose read or decode fails is `none`, a snapshot file
whose JSON parse fails is `none`, and a JSON field that is absent is `none`.
-/

/-! ### Insertion-ordered association lists (the model of Python dicts)

`bump m k v` models `d[k] += v` on a `defaultdict(int)`: a missing key is
appended at the end (Python dicts keep insertion order), an existing key is
updated in place.  `lookupD` is lookup with the integer default 0. -/

def lookupD (m : List (String × Nat)) (k : String) : Nat :=
  match m with
  | [] => 0
  | (k1, v) :: r => if k1 = k then v else lookupD r k

def bump (m : List (String × Nat)) (k : String) (v : Nat) : List (String × Nat) :=
  match m with
  | [] => [(k, v)]
  | (k1, v1) :: r => if k1 = k then (k1, v1 + v) :: r else (k1, v1) :: bump r k v

/-- Lookup in a nested map `language -> (library -> count)`; default is the
empty inner dict, matching `defaultdict(lambda: defaultdict(int))`. -/
def lookupA (m : List (String × List (String × Nat))) (k : String) : List (String × Nat) :=
  match m with
  | [] => []
  | (k1, v) :: r => if k1 = k then v else lookupA r k

/-- `bumpN m lang name c` models `imports_agg[lang][name] += c` on a
`defaultdict(lambda: defaultdict(int))`. -/
def bumpN (m : List (String × List (String × Nat))) (lang name : String) (c : Nat) :
    List (String × List (String × Nat)) :=
  match m with
  | [] => [(lang, bump [] name c)]
  | (k1, inner) :: r =>
    if k1 = lang then (k1, bump inner name c) :: r else (k1, inner) :: bumpN r lang name c

/-! ### Stable descending sort (the model of `sorted(..., reverse=True)` /
`list.sort(..., reverse=True)`)

Python's sort is stable; sorting descending by an integer key is therefore
exactly insertion sort with the relation `key b ≤ key a` (an earlier element
stays in front of a later one with the same key). -/

def keyDesc {α : Type} (k : α → Nat) : α → α → Prop := fun a b => k b ≤ k a

instance {α : Type} (k : α → Nat) : DecidableRel (keyDesc k) :=
  fun a b => Nat.decLe (k b) (k a)

instance {α : Type} (k : α → Nat) : IsTotal α (keyDesc k) :=
  ⟨fun a b => Nat.le_total (k b) (k a)⟩

instance {α : Type} (k : α → Nat) : IsTrans α (keyDesc k) :=
  ⟨fun _ _ _ hab hbc => Nat.le_trans hbc hab⟩

def stableSortDesc {α : Type} (k : α → Nat) (l : List α) : List α :=
  List.insertionSort (keyDesc k) l

/-! ### First-occurrence order

`firstOrder l` keeps the first occurrence of every element of `l`, in order.
It characterises the key order of the insertion-ordered dicts built by the
aggregator. -/

def foAcc (acc : List String) (l : List String) : List String :=
  l.foldl (fun a x => if x ∈ a then a else a ++ [x]) acc

def firstOrder (l : List String) : List String := foAcc [] l

/-- Python's `str.lower()` (for the ASCII names this system handles):
lowercase each character.  Defined by structural recursion over the
character list so that concrete snapshots evaluate inside the kernel. -/
def strLower (s : String) : String := String.mk (s.toList.map Char.toLower)

/-! ### SnapshotGenerator: configured lookup tables

Transcribed verbatim from the class attributes of
`com_worktwins_shooter/SnapshotGenerator.py` (Python sets are modelled as
lists; only membership is ever used). -/

def COMMON_AVOID_FOLDERS : List String :=
  ["node_modules", "venv", "env", "__pycache__", "site-packages", "myenv",
   "target", "bin", "build",
   "obj",
   "vendor", ".git", ".hg", ".svn"]

def COMMON_AVOID_FILES : List String :=
  ["package-lock.json", "yarn.lock", "pnpm-lock.yaml", "Cargo.lock",
   "Pipfile.lock", "composer.lock", ".DS_Store", "thumbs.db", "Thumbs.db",
   "npm-debug.log", "yarn-error.log", "Dockerfile", "docker-compose.yml",
   ".env", ".gitignore", ".gitattributes", "Makefile"]

def KEY_FILES : List String :=
  ["Dockerfile", ".dockerignore", "package.json", "requirements.txt",
   "Pipfile", "composer.json", "Gemfile", "build.gradle", "pom.xml",
   "Cargo.toml", "Makefile"]

def INCLUDE_EXTENSIONS : List String :=
  [".js", ".mjs", ".jsx",
   ".ts", ".tsx",
   ".py",
   ".java",
   ".cs", ".csproj",
   ".cpp", ".hpp", ".h", ".cc",
   ".c", ".h",
   ".rb", ".erb", ".rake",
   ".php", ".phtml", ".php3", ".php4", ".php5", ".phps",
   ".swift",
   ".kt", ".kts",
   ".go",
   ".R", ".r",
   ".pl", ".pm", ".t",
   ".sh", ".bash",
   ".html", ".htm",
   ".css", ".scss", ".sass", ".less",
   ".sql",
   ".scala", ".sc",
   ".hs", ".lhs",
   ".lua",
   ".rs",
   ".dart",
   ".m",
   ".jl",
   ".vb", ".vbs",
   ".asm", ".s",
   ".fs", ".fsi", ".fsx",
   ".groovy", ".gvy", ".gy", ".gsh",
   ".erl", ".hrl",
   ".ex", ".exs",
   ".cob", ".cbl",
   ".f", ".for", ".f90", ".f95",
   ".adb", ".ads",
   ".pl", ".pro", ".P",
   ".lisp", ".lsp",
   ".scm", ".ss",
   ".rkt",
   ".v", ".vh",
   ".vhdl", ".vhd",
   ".md", ".markdown",
   ".vue",
   ".svelte",
   ".ipynb",
   ".json",
   ".yaml", ".yml",
   ".xml",
   ".gitignore", ".gitattributes",
   ".travis.yml", "Jenkinsfile", ".circleci/config.yml", ".gitlab-ci.yml", "azure-pipelines.yml"]

def BINARY_EXTENSIONS : List String :=
  [".png", ".jpg", ".jpeg", ".gif", ".bmp", ".pdf", ".exe", ".dll", ".so",
   ".zip", ".tar", ".gz", ".7z", ".rar", ".mp3", ".mp4", ".avi", ".mov",
   ".wmv", ".flv", ".mkv", ".iso", ".jar", ".war", ".ear", ".class", ".o",
   ".obj", ".pyc", ".pyo", ".apk", ".dmg", ".pkg", ".app", ".deb", ".rpm",
   ".psd", ".ai", ".eps", ".ps", ".ttf", ".woff", ".woff2", ".eot", ".otf",
   ".ico", ".icns", ".swf", ".fla", ".cab", ".sys", ".msi", ".msp", ".msm",
   ".crx", ".xpi", ".vsix", ".doc", ".docx", ".xls", ".xlsx", ".ppt",
   ".pptx", ".odt", ".ods", ".odp", ".odg", ".odb", ".odf", ".rtf"]

/-- The `language_extensions` table built in `SnapshotGenerator.__init__`. -/
def language_extensions : List (String × String) :=
  [(".py", "Python"),
   (".js", "JavaScript"),
   (".java", "Java"),
   (".cpp", "C++"),
   (".c", "C"),
   (".cs", "C#"),
   (".php", "PHP"),
   (".rb", "Ruby"),
   (".go", "Go"),
   (".swift", "Swift"),
   (".ts", "TypeScript"),
   (".kt", "Kotlin"),
   (".rs", "Rust"),
   (".dart", "Dart")]

/-! ### `os.path.splitext`

`splitextExt name` is the second component of Python's
`os.path.splitext(name)` for a bare file name (no directory separators):
the suffix starting at the last dot, unless every character before that dot
is itself a dot (then there is no extension). -/

def lastDotIdxAux : List Char → Nat → Option Nat
  | [], _ => none
  | c :: cs, i =>
    match lastDotIdxAux cs (i + 1) with
    | some j => some j
    | none => if c = '.' then some i else none

def splitextExt (s : String) : String :=
  let cs := s.toList
  match lastDotIdxAux cs 0 with
  | none => ""
  | some i => if (cs.take i).all (fun c => c = '.') then ("") else String.mk (cs.drop i)

/-! ### Import extraction (`SnapshotGenerator.extract_imports`)

The Python code applies `re.findall` with `re.MULTILINE` regexes over the
whole file content.  The embeddings below scan the whole content the way
`re.findall` does: left to right, non-overlapping, restarting behind each
match; the `^` anchors fire at the start of the content and after every
newline, and the `\s` classes match newlines, so one match may span line
breaks (e.g. `import\nimport os` captures `import`).  A matcher returns
its capture together with the length of the whole match minus one (every
match here is at least one character long), and the scanner resumes
behind the match by dropping that many characters plus one.

`isWs` is the ASCII part of the regex class `\s`. -/

def isWs (c : Char) : Bool :=
  c == ' ' || c == '\t' || c == '\n' || c == '\r' || c == '\x0b' || c == '\x0c'

/-- The Python regex `^\s*(?:import|from)\s+([^\s,]+)` matched at one line
start: leading `\s*` (greedy; only the maximal run can be followed by a
keyword, since keywords start with a non-whitespace character), the
keyword `import` (tried first) or `from`, at least one `\s`, then the
capture — a nonempty run of characters that are neither whitespace nor a
comma.  Returns the capture and the match length minus one. -/
def pyMatchAt (cs : List Char) : Option (String × Nat) :=
  let w := cs.takeWhile isWs
  let r0 := cs.drop w.length
  let kl? : Option Nat :=
    if ("import").toList.isPrefixOf r0 then some 6
    else if ("from").toList.isPrefixOf r0 then some 4
    else none
  match kl? with
  | some kl =>
    let r1 := r0.drop kl
    let w2 := r1.takeWhile isWs
    if w2 = [] then none
    else
      let tok := (r1.drop w2.length).takeWhile (fun c => !(isWs c) && c != ',')
      if tok = [] then none
      else some (String.mk tok, w.length + kl + w2.length + (tok.length - 1))
  | none => none

/-- `re.findall` scan for the Python-import regex: the pattern is anchored,
so a match can only start at a line start (`atStart` is true at the start
of the content and right after a `'\n'`).  The `skip` counter holds the
number of characters of the current match still to pass over, so the
recursion is structural; behind a match scanning resumes with `atStart`
false (the last matched character is from the capture, never a newline). -/
def pyScan : List Char → Nat → Bool → List String
  | [], _, _ => []
  | _ :: cs, skip + 1, _ => pyScan cs skip false
  | c :: cs, 0, atStart =>
    if atStart then
      match pyMatchAt (c :: cs) with
      | some (tok, n) => tok :: pyScan cs n false
      | none => pyScan cs 0 (c = '\n')
    else
      pyScan cs 0 (c = '\n')

def pyImports (content : String) : List String := pyScan content.toList 0 true

/-- The Java regex `^\s*import\s+([^\s;]+);` matched at one line start: as
for Python, but with a single keyword, the capture class `[^\s;]`, and a
mandatory semicolon right after the capture (the semicolon is part of the
match).  Returns the capture and the match length minus one. -/
def javaMatchAt (cs : List Char) : Option (String × Nat) :=
  let w := cs.takeWhile isWs
  let r0 := cs.drop w.length
  if ("import").toList.isPrefixOf r0 then
    let r1 := r0.drop 6
    let w2 := r1.takeWhile isWs
    if w2 = [] then none
    else
      let r2 := r1.drop w2.length
      let tok := r2.takeWhile (fun c => !(isWs c) && c != ';')
      if tok = [] then none
      else
        match r2.drop tok.length with
        | ';' :: _ => some (String.mk tok, w.length + 6 + w2.length + tok.length)
        | _ => none
  else none

def javaScan : List Char → Nat → Bool → List String
  | [], _, _ => []
  | _ :: cs, skip + 1, _ => javaScan cs skip false
  | c :: cs, 0, atStart =>
    if atStart then
      match javaMatchAt (c :: cs) with
      | some (tok, n) => tok :: javaScan cs n false
      | none => javaScan cs 0 (c = '\n')
    else
      javaScan cs 0 (c = '\n')

def javaImports (content : String) : List String := javaScan content.toList 0 true

/-! JS/TS regex:
`^\s*(?:import\s.*?from\s+['"]([^'"]+)['"])|(?:require\(['"]([^'"]+)['"]\))`.
The alternation is top level: the `import ... from '<spec>'` alternative is
anchored at a line start, while `require('<spec>')` matches anywhere.  In
the anchored alternative, `import` is followed by exactly one `\s` (which
may be a newline), the lazy `.*?` cannot cross a newline, `from\s+` and
the quoted capture can (the class `[^'"]` includes newlines), and the
opening and closing quote characters are independent. -/

def isQuote (c : Char) : Bool := c == '\'' || c == '"'

/-- Match `require(['"]<spec>['"])` at the head of `cs`; return the capture
and the capture's length (the whole match consumes `length + 11`
characters: `require(` + opening quote + capture + closing quote + `)`). -/
def matchRequireN (cs : List Char) : Option (String × Nat) :=
  let pat := ("require(").toList
  if cs.take pat.length = pat then
    match cs.drop pat.length with
    | c :: r =>
      if isQuote c then
        let tok := r.takeWhile (fun d => !(isQuote d))
        if tok = [] then none
        else
          match r.drop tok.length with
          | q :: ')' :: _ => if isQuote q then some (String.mk tok, tok.length) else none
          | _ => none
      else none
    | [] => none
  else none

/-- `from\s+['"]([^'"]+)['"]` at the head of `cs`: the keyword, at least one
`\s` (newlines allowed), an opening quote, the nonempty capture of
non-quote characters, and a closing quote.  Returns the capture and the
number of characters consumed. -/
def jsFromAt (cs : List Char) : Option (String × Nat) :=
  if ("from").toList.isPrefixOf cs then
    let r1 := cs.drop 4
    let w2 := r1.takeWhile isWs
    if w2 = [] then none
    else
      match r1.drop w2.length with
      | q :: r2 =>
        if isQuote q then
          let tok := r2.takeWhile (fun d => !(isQuote d))
          if tok = [] then none
          else
            match r2.drop tok.length with
            | q2 :: _ =>
              if isQuote q2 then some (String.mk tok, 4 + w2.length + 1 + tok.length + 1)
              else none
            | [] => none
        else none
      | [] => none
  else none

/-- The lazy `.*?from\s+['"]([^'"]+)['"]` part: find the earliest position
where the `from`-clause matches, without letting `.*?` cross a newline.
Returns the capture and the number of characters consumed (skipped gap
plus clause). -/
def jsFindFrom : List Char → Option (String × Nat)
  | [] => none
  | c :: cs =>
    match jsFromAt (c :: cs) with
    | some r => some r
    | none =>
      if c = '\n' then none
      else
        match jsFindFrom cs with
        | some (tok, m) => some (tok, m + 1)
        | none => none

/-- The anchored alternative `^\s*import\s.*?from\s+['"]([^'"]+)['"]` at one
line start.  Returns the capture and the match length minus one (the
capture is nonempty). -/
def jsMatchA (cs : List Char) : Option (String × Nat) :=
  let w := cs.takeWhile isWs
  let r0 := cs.drop w.length
  if ("import").toList.isPrefixOf r0 then
    match r0.drop 6 with
    | c1 :: r1 =>
      if isWs c1 then
        match jsFindFrom r1 with
        | some (tok, m) => some (tok, w.length + 6 + m)
        | none => none
      else none
    | [] => none
  else none

/-- `re.findall` scan for the JS/TS regex: at a line start the anchored
alternative is tried first (as the regex alternation does), then
`require(...)`, which is also tried at every other position; behind a
match scanning resumes immediately (the last matched character is a quote
or a closing parenthesis, never a newline). -/
def jsScan : List Char → Nat → Bool → List String
  | [], _, _ => []
  | _ :: cs, skip + 1, _ => jsScan cs skip false
  | c :: cs, 0, atStart =>
    match (if atStart then jsMatchA (c :: cs) else none) with
    | some (tok, n) => tok :: jsScan cs n false
    | none =>
      match matchRequireN (c :: cs) with
      | some (spec, m) => spec :: jsScan cs (m + 10) false
      | none => jsScan cs 0 (c = '\n')

def jsImports (content : String) : List String := jsScan content.toList 0 true

def extract_imports (imports : List (String × Nat)) (content : String) (extension : String) :
    List (String × Nat) :=
  if extension = ".py" then
    (pyImports content).foldl (fun m imp => bump m imp 1) imports
  else if extension = ".js" ∨ extension = ".jsx" ∨ extension = ".ts" ∨ extension = ".tsx" then
    (jsImports content).foldl (fun m imp => bump m imp 1) imports
  else if extension = ".java" then
    (javaImports content).foldl (fun m imp => bump m imp 1) imports
  else imports

/-- `SnapshotGenerator.detect_programming_language`: look the (non-lowercased)
extension up in the `language_extensions` table. -/
def detect_programming_language (filename : String) : Option String :=
  language_extensions.lookup (splitextExt filename)

/-! ### The File Classifier and the Project Scanner
(`SnapshotGenerator.generate_context_data`)

The directory walk itself (`os.walk` with in-place pruning of
`avoid_folders`) is I/O; the scanner is modelled over the resulting file
sequence in walk order.  A file whose read or UTF-8 decode raises is
represented with `content = none` (the `except` branches skip it). -/

structure ScanConfig where
  avoid_files : List String
  include_extensions : List String
  key_files : List String
deriving DecidableEq

/-- One file met during the walk: its full path, its base name, and its
content (`none` when reading or decoding fails). -/
structure FSFile where
  path : String
  name : String
  content : Option String
deriving DecidableEq

/-- The configuration `WorkTwinsDataSource.generate_json_report` passes to
`SnapshotGenerator`. -/
def defaultScanConfig : ScanConfig :=
  { avoid_files := COMMON_AVOID_FILES
    include_extensions := INCLUDE_EXTENSIONS
    key_files := KEY_FILES }

inductive FileClass where
  | skip
  | includeSource
  | includeKeyFile
deriving DecidableEq

/-- The per-file include/exclude decision of the scan loop, in the source's
order: excluded file name, then binary extension (on the lowercased
`os.path.splitext` extension), then included extension or key file.  The
Python code inlines these tests in `generate_context_data` and does not
distinguish the two include outcomes; the spec's classifier contract does,
so the include outcome follows the code's `or` (extension first).  `path`
is unused by the per-file rules: pruning of excluded folders is a decision
of the walker, not of the classifier. -/
def classify (cfg : ScanConfig) (path name : String) : FileClass :=
  if name ∈ cfg.avoid_files then .skip
  else
    let ext := strLower (splitextExt name)
    if ext ∈ BINARY_EXTENSIONS then .skip
    else if ext ∈ cfg.include_extensions then .includeSource
    else if name ∈ cfg.key_files then .includeKeyFile
    else .skip

/-- A File Record, keyed by the fields the snapshot stores.  `Size` and
`Last Modified` come from `os.stat` and are I/O metadata outside the
model; `Lines` is derived from the content. -/
structure FileRecord where
  file : String
  full_path : String
  source_code : String
deriving DecidableEq

structure ScanState where
  project_sources : List FileRecord
  imports : List (String × Nat)
  detected_language : Option String
deriving DecidableEq

/-- The body of the file loop of `generate_context_data`: skip avoided
names, skip binary extensions, read files with included extensions or
key-file names, append a File Record, extract imports, and set the
detected language if still unset.  `detect_programming_language` may
return `None`, which leaves the language unset (all table values are
nonempty strings, so Python's falsiness test is `Option.isNone`). -/
def scanStep (cfg : ScanConfig) (st : ScanState) (f : FSFile) : ScanState :=
  match classify cfg f.path f.name, f.content with
  | .skip, _ => st
  | _, none => st
  | _, some content =>
    { project_sources := st.project_sources ++
        [{ file := f.name, full_path := f.path, source_code := content }]
      imports := extract_imports st.imports content (strLower (splitextExt f.name))
      detected_language :=
        match st.detected_language with
        | some l => some l
        | none => detect_programming_language f.name }

/-- The snapshot fields produced by `generate_context_data` (and written
verbatim to the snapshot JSON by `generate_context_file`). -/
structure ProjectData where
  project_sources : List FileRecord
  programming_language : String
  file_count : Nat
  external_libraries : List (String × Nat)
  observations : List String
deriving DecidableEq

def generate_context_data (cfg : ScanConfig) (files : List FSFile) : ProjectData :=
  let st := files.foldl (scanStep cfg) ⟨[], [], none⟩
  { project_sources := st.project_sources
    programming_language := st.detected_language.getD ("unknown")
    file_count := st.project_sources.length
    external_libraries := st.imports
    observations :=
      if st.imports = [] then
        ["No external libraries or imports were detected in the source code."]
      else [] }

/-! ### The Aggregator (`WorkTwinsDataSource.aggregate_snapshots`)

A snapshot file is listed by name; its JSON parse result is `none` when
`json.load` (or the read) raises, and otherwise a record whose fields are
`none` when absent from the JSON object.  An entry of `external_libraries`
is well-formed when it is a dict containing both `import_name` and `count`
(the code's `isinstance`/key test); anything else is `RawLib.bad`. -/

inductive RawLib where
  | good (import_name : String) (count : Nat)
  | bad
deriving DecidableEq

structure RawSnapshot where
  programming_language : Option String
  file_count : Option Nat
  external_libraries : Option (List RawLib)
deriving DecidableEq

structure AggState where
  imports_agg : List (String × List (String × Nat))
  file_counts : List (String × Nat)
deriving DecidableEq

/-- The body of the aggregation loop for one listed snapshot file.  The
three `assert`s run before any accumulation, and a failed assertion (or a
parse failure) is caught per file, so such a snapshot contributes nothing;
an empty `programming_language` (after `.lower()`) is skipped as falsy;
ill-formed library entries are skipped inside the library loop. -/
def processFile (st : AggState) (j : Option RawSnapshot) : AggState :=
  match j with
  | none => st
  | some p =>
    match p.programming_language, p.file_count, p.external_libraries with
    | some pl0, some fc, some libs =>
      let pl := strLower pl0
      if pl = "" then st
      else
        let st1 : AggState :=
          { st with file_counts := bump st.file_counts pl fc }
        libs.foldl
          (fun s l =>
            match l with
            | .good name c => { s with imports_agg := bumpN s.imports_agg pl name c }
            | .bad => s)
          st1
    | _, _, _ => st

def aggStateOf (ps : List (Option RawSnapshot)) : AggState :=
  ps.foldl processFile ⟨[], []⟩

/-- One element of the report's `programming_languages` array. -/
structure LangSummary where
  programming_language : String
  libraries_used : List (String × Nat)
  file_count : Nat
deriving DecidableEq

/-- The `overall_data` list as built before the final sort: one entry per
key of `imports_agg`, libraries sorted descending by count (stable), file
count looked up in `file_counts`. -/
def overallData (st : AggState) : List LangSummary :=
  st.imports_agg.map (fun e =>
    { programming_language := e.1
      libraries_used := stableSortDesc (fun p => p.2) e.2
      file_count := lookupD st.file_counts e.1 })

/-- `aggregate_snapshots` on already-listed parse results: accumulate, build
`overall_data`, and sort it descending by `file_count` (stable). -/
def aggregateParsed (ps : List (Option RawSnapshot)) : List LangSummary :=
  stableSortDesc (fun s => s.file_count) (overallData (aggStateOf ps))

/-- The scope-selection rule of the aggregation loop: the file name contains
the literal marker `_snapshot_` and ends in `.json`. -/
def containsSeq (pat : List Char) : List Char → Bool
  | [] => pat.isPrefixOf []
  | c :: t => pat.isPrefixOf (c :: t) || containsSeq pat t

def snapshotNameOk (name : String) : Bool :=
  containsSeq ("_snapshot_").toList name.toList &&
    (".json").toList.isSuffixOf name.toList

/-- The files the aggregator actually reads, in listing order. -/
def parsedOf (files : List (String × Option RawSnapshot)) : List (Option RawSnapshot) :=
  (files.filter (fun f => snapshotNameOk f.1)).map (fun f => f.2)

/-- `WorkTwinsDataSource.aggregate_snapshots`, from a directory listing of
(name, parse result) pairs. -/
def aggregate_snapshots (files : List (String × Option RawSnapshot)) : List LangSummary :=
  aggregateParsed (parsedOf files)

/-! ### IEEE-754 double-precision arithmetic (exact model over `ℚ`)

The progress loop computes `int((scanned / total) * 100)` in Python: `/`
on ints is true division producing a correctly rounded IEEE-754 double of
the exact quotient, `* 100` multiplies by the exactly representable
double 100 and rounds the product, and `int` truncates toward zero.
A (normal, finite) double is a rational with a 53-bit mantissa; rounding
is to nearest, ties to even mantissa.  The model below implements exactly
that on `ℚ`: `qExp q` is the binade exponent `e` with `2^e ≤ q < 2^(e+1)`,
the scaled mantissa `q * 2^(52-e)` lies in `[2^52, 2^53)` and is rounded
to the nearest integer (ties to even) by `rIntNE`.  The model has
unbounded exponent range, so it agrees with double arithmetic whenever no
overflow or subnormal underflow occurs — which holds for every quotient
`scanned/total` of a feasible project count.  All definitions are
structurally recursive so concrete values reduce inside the kernel. -/

/-- `natLog2F fuel m` is `⌊log₂ m⌋` when `1 ≤ m ≤ fuel` (fuel-driven so the
recursion is structural). -/
def natLog2F : Nat → Nat → Nat
  | 0, _ => 0
  | fuel + 1, m => if 2 ≤ m then natLog2F fuel (m / 2) + 1 else 0

def natLog2 (n : Nat) : Nat := natLog2F n n

/-- The binade exponent of a positive rational: the unique `e` with
`2^e ≤ q < 2^(e+1)`, computed by scaling the numerator up by enough powers
of two to dominate the denominator. -/
def qExp (q : ℚ) : ℤ :=
  let a := q.num.toNat
  let b := q.den
  let T := natLog2 b + 1
  (natLog2 (a * 2 ^ T / b) : ℤ) - T

/-- Round a rational to the nearest integer, ties to the even integer. -/
def rIntNE (x : ℚ) : ℤ :=
  let f := ⌊x⌋
  if x - f < 1 / 2 then f
  else if 1 / 2 < x - f then f + 1
  else if 2 ∣ f then f else f + 1

/-- Round a nonnegative rational to the nearest IEEE-754 double (round to
nearest, ties to even, 53-bit mantissa, unbounded exponent range). -/
def roundD (q : ℚ) : ℚ :=
  if q ≤ 0 then 0
  else
    let e := qExp q
    (rIntNE (q * 2 ^ (52 - e)) : ℚ) * 2 ^ (e - 52)

/-- Python's `int((scanned / total) * 100)`: correctly rounded double
division of the exact integer operands, double multiplication by the
exact 100, truncation toward zero (= floor, the value is nonnegative). -/
def pyFloatPct (scanned total : Nat) : ℤ :=
  ⌊roundD (roundD ((scanned : ℚ) / (total : ℚ)) * 100)⌋

/-! ### The progress loop of `WorkTwinsDataSource.generate_json_report`

For each project (whether `SnapshotGenerator` succeeded or raised — the
`try`/`except` swallows failures), the loop increments `scanned_projects`
and, when a callback is registered and `total_projects > 0`, reports
`int((scanned / total) * 100)` computed in double precision, modelled
exactly by `pyFloatPct`. -/

def progressTrace (total : Nat) (outcomes : List Bool) : List Int :=
  (outcomes.foldl
    (fun acc _ =>
      let scanned := acc.1 + 1
      (scanned, acc.2 ++ (if total > 0 then [pyFloatPct scanned total] else [])))
    ((0 : Nat), ([] : List Int))).2

/-- One iteration of the progress loop, as a named function (definitionally
equal to the fold body of `progressTrace`). -/
def progressStep (total : Nat) : Nat × List Int → Bool → Nat × List Int :=
  fun p _ => (p.1 + 1, p.2 ++ (if total > 0 then [pyFloatPct (p.1 + 1) total] else []))

/-! ### Derived views used to state the claims -/

/-- The aggregator's view of one listed snapshot file: `none` when the file
is rejected (parse failure, a missing required field, or an empty language
tag), otherwise the lowercased language, the file count, and the list of
well-formed `(import_name, count)` library entries. -/
def validView (j : Option RawSnapshot) : Option (String × Nat × List (String × Nat)) :=
  match j with
  | none => none
  | some p =>
    match p.programming_language, p.file_count, p.external_libraries with
    | some pl0, some fc, some libs =>
      let pl := strLower pl0
      if pl = "" then none
      else
        some (pl, fc,
          libs.filterMap (fun l =>
            match l with
            | .good name c => some (name, c)
            | .bad => none))
    | _, _, _ => none

/-- The languages, in snapshot order, of the accepted snapshots that carry
at least one well-formed library entry (these are the snapshots that insert
their language into `imports_agg`). -/
def langStream (ps : List (Option RawSnapshot)) : List String :=
  ps.filterMap (fun j =>
    match validView j with
    | some (pl, _, vlibs) => if vlibs = [] then none else some pl
    | none => none)

/-- All well-formed library entries contributed to language `lang`, in
snapshot order. -/
def libStream (ps : List (Option RawSnapshot)) (lang : String) : List (String × Nat) :=
  ps.flatMap (fun j =>
    match validView j with
    | some (pl, _, vlibs) => if pl = lang then vlibs else []
    | none => [])

/-- Sum of `file_count` over the accepted snapshots of language `lang`. -/
def fcSum (ps : List (Option RawSnapshot)) (lang : String) : Nat :=
  (ps.map (fun j =>
    match validView j with
    | some (pl, fc, _) => if pl = lang then fc else 0
    | none => 0)).sum

/-- A walked file that the scan actually reads: the classifier admits it and
its content decodes. -/
def isProcessed (cfg : ScanConfig) (f : FSFile) : Bool :=
  decide (classify cfg f.path f.name ≠ FileClass.skip) && f.content.isSome

/-- The language of the first processed file whose extension is in the
`language_extensions` table, if any — the scan's detected language. -/
def firstLang (cfg : ScanConfig) (files : List FSFile) : Option String :=
  ((files.filter (isProcessed cfg)).filterMap
    (fun f => detect_programming_language f.name)).head?

/-! ### Lemmas: ordered association lists -/

theorem lookupD_bump (m : List (String × Nat)) (k : String) (v : Nat) (k1 : String) :
    lookupD (bump m k v) k1 = lookupD m k1 + (if k = k1 then v else 0) := by
  induction m with
  | nil =>
    by_cases h : k = k1 <;> simp [bump, lookupD, h]
  | cons e r ih =>
    obtain ⟨ek, ev⟩ := e
    by_cases h : ek = k
    · subst h
      by_cases h1 : ek = k1 <;> simp [bump, lookupD, h1, Nat.add_comm]
    · by_cases h1 : ek = k1
      · subst h1
        simp [bump, lookupD, h]
        intro h2
        exact absurd h2.symm h
      · simp [bump, lookupD, h, h1, ih]

theorem keys_bump (m : List (String × Nat)) (k : String) (v : Nat) :
    (bump m k v).map Prod.fst =
      if k ∈ m.map Prod.fst then m.map Prod.fst else m.map Prod.fst ++ [k] := by
  induction m with
  | nil => simp [bump]
  | cons e r ih =>
    obtain ⟨ek, ev⟩ := e
    by_cases h : ek = k
    · subst h
      simp [bump]
    · have hk : k ≠ ek := fun hh => h hh.symm
      simp [bump, h, ih]
      by_cases h2 : k ∈ r.map Prod.fst <;> simp [h2, hk]

theorem lookupA_bumpN (m : List (String × List (String × Nat))) (lang name : String)
    (c : Nat) (lang1 : String) :
    lookupA (bumpN m lang name c) lang1 =
      if lang = lang1 then bump (lookupA m lang) name c else lookupA m lang1 := by
  induction m with
  | nil =>
    by_cases h : lang = lang1 <;> simp [bumpN, lookupA, h]
  | cons e r ih =>
    obtain ⟨ek, ev⟩ := e
    by_cases h : ek = lang
    · subst h
      by_cases h1 : ek = lang1 <;> simp [bumpN, lookupA, h1]
    · by_cases h1 : ek = lang1
      · subst h1
        simp [bumpN, lookupA, h]
        rw [if_neg (show ¬lang = ek from fun h2 => h h2.symm)]
      · simp [bumpN, lookupA, h, h1, ih]

theorem keys_bumpN (m : List (String × List (String × Nat))) (lang name : String) (c : Nat) :
    (bumpN m lang name c).map Prod.fst =
      if lang ∈ m.map Prod.fst then m.map Prod.fst else m.map Prod.fst ++ [lang] := by
  induction m with
  | nil => simp [bumpN]
  | cons e r ih =>
    obtain ⟨ek, ev⟩ := e
    by_cases h : ek = lang
    · subst h
      simp [bumpN]
    · have hk : lang ≠ ek := fun hh => h hh.symm
      simp [bumpN, h, ih]
      by_cases h2 : lang ∈ r.map Prod.fst <;> simp [h2, hk]

theorem mem_keys_bumpN (m : List (String × List (String × Nat))) (lang name : String)
    (c : Nat) : lang ∈ (bumpN m lang name c).map Prod.fst := by
  rw [keys_bumpN]
  by_cases h : lang ∈ m.map Prod.fst <;> simp [h]

/-! ### Lemmas: first-occurrence order -/

theorem foAcc_nil (acc : List String) : foAcc acc [] = acc := rfl

theorem foAcc_cons (acc : List String) (x : String) (l : List String) :
    foAcc acc (x :: l) = foAcc (if x ∈ acc then acc else acc ++ [x]) l := rfl

theorem foAcc_append (acc : List String) (l1 l2 : List String) :
    foAcc acc (l1 ++ l2) = foAcc (foAcc acc l1) l2 := by
  simp [foAcc, List.foldl_append]

theorem mem_foAcc (acc : List String) (l : List String) (y : String) :
    y ∈ foAcc acc l ↔ y ∈ acc ∨ y ∈ l := by
  induction l generalizing acc with
  | nil => simp [foAcc_nil]
  | cons x t ih =>
    rw [foAcc_cons]
    by_cases h : x ∈ acc
    · simp [h, ih]
      constructor
      · tauto
      · rintro (hy | hy | hy)
        · exact Or.inl hy
        · subst hy
          exact Or.inl h
        · exact Or.inr hy
    · simp [h, ih, List.mem_append]
      tauto

theorem nodup_foAcc (acc : List String) (l : List String) (h : acc.Nodup) :
    (foAcc acc l).Nodup := by
  induction l generalizing acc with
  | nil => exact h
  | cons x t ih =>
    rw [foAcc_cons]
    by_cases hx : x ∈ acc
    · simp [hx]
      exact ih acc h
    · simp [hx]
      refine ih (acc ++ [x]) ?_
      rw [List.nodup_append]
      simp [h, hx]

theorem mem_firstOrder (l : List String) (y : String) : y ∈ firstOrder l ↔ y ∈ l := by
  simp [firstOrder, mem_foAcc]

theorem nodup_firstOrder (l : List String) : (firstOrder l).Nodup :=
  nodup_foAcc [] l List.nodup_nil

/-! ### Lemmas: the stable descending sort -/

theorem stableSortDesc_perm {α : Type} (k : α → Nat) (l : List α) :
    (stableSortDesc k l).Perm l :=
  List.perm_insertionSort (keyDesc k) l

theorem stableSortDesc_sorted {α : Type} (k : α → Nat) (l : List α) :
    (stableSortDesc k l).Pairwise (fun a b => k b ≤ k a) :=
  List.sorted_insertionSort (keyDesc k) l

theorem filter_orderedInsert {α : Type} (k : α → Nat) (c : Nat) (a : α) (s : List α) :
    (s.orderedInsert (keyDesc k) a).filter (fun x => decide (k x = c)) =
      if k a = c then a :: s.filter (fun x => decide (k x = c))
      else s.filter (fun x => decide (k x = c)) := by
  induction s with
  | nil =>
    by_cases h : k a = c <;> simp [List.orderedInsert, List.filter_cons, h]
  | cons b t ih =>
    by_cases hr : keyDesc k a b
    · by_cases h : k a = c <;> by_cases hb : k b = c <;>
        simp [List.orderedInsert, hr, List.filter_cons, h, hb]
    · have hlt : k a < k b := Nat.lt_of_not_le hr
      by_cases h : k a = c
      · have hb : ¬k b = c := by
          subst h
          exact fun he => absurd (he ▸ hlt) (Nat.lt_irrefl _)
        simp [List.orderedInsert, hr, List.filter_cons, h, hb, ih]
      · by_cases hb : k b = c <;>
          simp [List.orderedInsert, hr, List.filter_cons, h, hb, ih]

theorem stableSortDesc_filter {α : Type} (k : α → Nat) (c : Nat) (l : List α) :
    (stableSortDesc k l).filter (fun x => decide (k x = c)) =
      l.filter (fun x => decide (k x = c)) := by
  induction l with
  | nil => rfl
  | cons a t ih =>
    show (List.orderedInsert (keyDesc k) a
      (List.insertionSort (keyDesc k) t)).filter (fun x => decide (k x = c)) = _
    rw [filter_orderedInsert]
    by_cases h : k a = c <;> simp [List.filter_cons, h] <;> exact ih

/-! ### Lemmas: one aggregation step -/

theorem processFile_none {j : Option RawSnapshot} (st : AggState)
    (h : validView j = none) : processFile st j = st := by
  match j with
  | none => rfl
  | some p =>
    match hpl : p.programming_language, hfc : p.file_count, hel : p.external_libraries with
    | some pl0, some fc, some libs =>
      by_cases he : strLower pl0 = ""
      · simp [processFile, hpl, hfc, hel, he]
      · exfalso
        simp [validView, hpl, hfc, hel, he] at h
    | none, _, _ => simp [processFile, hpl]
    | some _, none, _ => simp [processFile, hpl, hfc]
    | some _, some _, none => simp [processFile, hpl, hfc, hel]

theorem libsFold_eq (pl : String) (libs : List RawLib) (st : AggState) :
    libs.foldl
        (fun s l =>
          match l with
          | .good name c => { s with imports_agg := bumpN s.imports_agg pl name c }
          | .bad => s)
        st =
      { st with
        imports_agg :=
          (libs.filterMap (fun l =>
            match l with
            | .good name c => some (name, c)
            | .bad => none)).foldl
            (fun m p => bumpN m pl p.1 p.2) st.imports_agg } := by
  induction libs generalizing st with
  | nil => rfl
  | cons l rest ih =>
    match l with
    | .good name c => simp [List.foldl_cons, List.filterMap_cons, ih]
    | .bad => simp [List.foldl_cons, List.filterMap_cons, ih]

theorem processFile_some {j : Option RawSnapshot} (st : AggState)
    {pl : String} {fc : Nat} {vlibs : List (String × Nat)}
    (h : validView j = some (pl, fc, vlibs)) :
    processFile st j =
      { imports_agg := vlibs.foldl (fun m p => bumpN m pl p.1 p.2) st.imports_agg
        file_counts := bump st.file_counts pl fc } := by
  match j with
  | none => exact absurd h (by simp [validView])
  | some p =>
    match hpl : p.programming_language, hfc : p.file_count, hel : p.external_libraries with
    | some pl0, some fc0, some libs =>
      by_cases he : strLower pl0 = ""
      · exfalso
        simp [validView, hpl, hfc, hel, he] at h
      · have hv := h
        simp [validView, hpl, hfc, hel, he] at hv
        obtain ⟨h1, h2, h3⟩ := hv
        subst h1
        subst h2
        subst h3
        simp [processFile, hpl, hfc, hel, he, libsFold_eq]
    | none, _, _ => exact absurd h (by simp [validView, hpl])
    | some _, none, _ => exact absurd h (by simp [validView, hpl, hfc])
    | some _, some _, none => exact absurd h (by simp [validView, hpl, hfc, hel])

/-! ### Lemmas: the aggregation fold -/

theorem fold_file_counts (ps : List (Option RawSnapshot)) (st : AggState) (lang : String) :
    lookupD (ps.foldl processFile st).file_counts lang =
      lookupD st.file_counts lang + fcSum ps lang := by
  induction ps generalizing st with
  | nil => simp [fcSum]
  | cons j rest ih =>
    match hv : validView j with
    | none =>
      rw [List.foldl_cons, processFile_none st hv]
      simp [fcSum, hv] at ih ⊢
      exact ih st
    | some (pl, fc, vlibs) =>
      rw [List.foldl_cons, processFile_some st hv]
      rw [ih]
      simp [fcSum, hv, lookupD_bump]
      by_cases h : pl = lang <;> simp [h] <;> omega

theorem keys_bumpNFold (vl : List (String × Nat)) (m : List (String × List (String × Nat)))
    (pl : String) :
    ((vl.foldl (fun m p => bumpN m pl p.1 p.2) m).map Prod.fst) =
      if vl = [] then m.map Prod.fst
      else if pl ∈ m.map Prod.fst then m.map Prod.fst else m.map Prod.fst ++ [pl] := by
  induction vl generalizing m with
  | nil => simp
  | cons p rest ih =>
    rw [List.foldl_cons, ih]
    by_cases hr : rest = [] <;>
      simp [hr, mem_keys_bumpN, keys_bumpN] <;>
      by_cases h2 : pl ∈ m.map Prod.fst <;> simp [h2]

theorem lookupA_bumpNFold (vl : List (String × Nat)) (m : List (String × List (String × Nat)))
    (pl lang : String) :
    lookupA (vl.foldl (fun m p => bumpN m pl p.1 p.2) m) lang =
      if pl = lang then vl.foldl (fun inner p => bump inner p.1 p.2) (lookupA m pl)
      else lookupA m lang := by
  induction vl generalizing m with
  | nil =>
    by_cases h : pl = lang
    · subst h
      simp
    · simp [h]
  | cons p rest ih =>
    rw [List.foldl_cons, ih]
    by_cases h : pl = lang
    · subst h
      simp [lookupA_bumpN]
    · simp [h, lookupA_bumpN]

theorem fold_keys (ps : List (Option RawSnapshot)) (st : AggState) :
    ((ps.foldl processFile st).imports_agg).map Prod.fst =
      foAcc (st.imports_agg.map Prod.fst) (langStream ps) := by
  induction ps generalizing st with
  | nil => simp [langStream, foAcc_nil]
  | cons j rest ih =>
    match hv : validView j with
    | none =>
      rw [List.foldl_cons, processFile_none st hv]
      simp [langStream, List.filterMap_cons, hv] at ih ⊢
      exact ih st
    | some (pl, fc, vlibs) =>
      rw [List.foldl_cons, processFile_some st hv]
      by_cases hvl : vlibs = []
      · subst hvl
        simp [langStream, List.filterMap_cons, hv]
        simp [langStream] at ih
        exact ih ⟨st.imports_agg, bump st.file_counts pl fc⟩
      · rw [ih]
        simp [keys_bumpNFold, hvl]
        simp [langStream, List.filterMap_cons, hv, hvl, foAcc_cons]

theorem fold_lookupA (ps : List (Option RawSnapshot)) (st : AggState) (lang : String) :
    lookupA (ps.foldl processFile st).imports_agg lang =
      (libStream ps lang).foldl (fun inner p => bump inner p.1 p.2)
        (lookupA st.imports_agg lang) := by
  induction ps generalizing st with
  | nil => simp [libStream]
  | cons j rest ih =>
    match hv : validView j with
    | none =>
      rw [List.foldl_cons, processFile_none st hv]
      simp [libStream, hv] at ih ⊢
      exact ih st
    | some (pl, fc, vlibs) =>
      rw [List.foldl_cons, processFile_some st hv]
      rw [ih]
      by_cases h : pl = lang
      · subst h
        simp [libStream, hv, lookupA_bumpNFold, List.foldl_append]
      · simp [libStream, hv, h, lookupA_bumpNFold]

theorem keys_bumpFold (vl : List (String × Nat)) (m : List (String × Nat)) :
    ((vl.foldl (fun inner p => bump inner p.1 p.2) m).map Prod.fst) =
      foAcc (m.map Prod.fst) (vl.map Prod.fst) := by
  induction vl generalizing m with
  | nil => simp [foAcc_nil]
  | cons p rest ih =>
    rw [List.foldl_cons, ih, List.map_cons, foAcc_cons, keys_bump]

theorem aggKeys (ps : List (Option RawSnapshot)) :
    (aggStateOf ps).imports_agg.map Prod.fst = firstOrder (langStream ps) :=
  fold_keys ps ⟨[], []⟩

theorem aggLookupA (ps : List (Option RawSnapshot)) (lang : String) :
    lookupA (aggStateOf ps).imports_agg lang =
      (libStream ps lang).foldl (fun inner p => bump inner p.1 p.2) [] :=
  fold_lookupA ps ⟨[], []⟩ lang

theorem aggFileCounts (ps : List (Option RawSnapshot)) (lang : String) :
    lookupD (aggStateOf ps).file_counts lang = fcSum ps lang := by
  have h := fold_file_counts ps ⟨[], []⟩ lang
  simpa [lookupD] using h

theorem lookupA_of_mem_nodup {m : List (String × List (String × Nat))}
    {k : String} {v : List (String × Nat)}
    (hnd : (m.map Prod.fst).Nodup) (hm : (k, v) ∈ m) : lookupA m k = v := by
  induction m with
  | nil => cases hm
  | cons e r ih =>
    obtain ⟨ek, ev⟩ := e
    rw [List.map_cons] at hnd
    have hnd1 := (List.nodup_cons.mp hnd).1
    have hnd2 := (List.nodup_cons.mp hnd).2
    rcases List.mem_cons.mp hm with he | hr
    · simp at he
      obtain ⟨h1, h2⟩ := he
      subst h1
      subst h2
      simp [lookupA]
    · have hke : ek ≠ k := by
        intro hkk
        subst hkk
        exact hnd1 (List.mem_map.mpr ⟨(ek, v), hr, rfl⟩)
      simp [lookupA, hke]
      exact ih hnd2 hr

theorem overallData_map_lang (st : AggState) :
    (overallData st).map (fun e => e.programming_language) = st.imports_agg.map Prod.fst := by
  simp [overallData, List.map_map]

theorem mem_aggregateParsed {ps : List (Option RawSnapshot)} {e : LangSummary} :
    e ∈ aggregateParsed ps ↔ e ∈ overallData (aggStateOf ps) :=
  (stableSortDesc_perm (fun s => s.file_count) (overallData (aggStateOf ps))).mem_iff

theorem mem_langStream (ps : List (Option RawSnapshot)) (lang : String) :
    lang ∈ langStream ps ↔
      ∃ j ∈ ps, ∃ fc vlibs, validView j = some (lang, fc, vlibs) ∧ vlibs ≠ [] := by
  simp only [langStream, List.mem_filterMap]
  constructor
  · rintro ⟨j, hj, hf⟩
    refine ⟨j, hj, ?_⟩
    match hv : validView j with
    | none => rw [hv] at hf; cases hf
    | some (pl, fc0, vl0) =>
      rw [hv] at hf
      by_cases hvl : vl0 = []
      · simp [hvl] at hf
      · simp [hvl] at hf
        subst hf
        exact ⟨fc0, vl0, rfl, hvl⟩
  · rintro ⟨j, hj, fc, vlibs, hv, hvl⟩
    exact ⟨j, hj, by simp [hv, hvl]⟩

/-! ### Claim C1 -/

/-- C1, counterexample.  One stored snapshot file, valid in every respect
(`programming_language = "Python"`, `file_count = 3`, `external_libraries`
present but empty).  The claim demands a `python` Language Summary entry
with `file_count = 3`; the code builds report entries only from
`imports_agg`, which a snapshot without well-formed library entries never
touches, so the Aggregate Report is empty. -/
theorem c1_counterexample :
    aggregate_snapshots [("p_snapshot_1.json", some ⟨some ("Python"), some 3, some []⟩)] =
      [] := by
  decide

/-- C1, amended: the Aggregate Report contains at most one Language Summary
entry per language; an entry for a language exists if and only if some
accepted snapshot of that language (case-normalized to lowercase) carries
at least one well-formed `external_libraries` entry — in particular a
language all of whose snapshots have an empty (or entirely ill-formed)
`external_libraries` list gets no entry — and each present entry's
`file_count` equals the sum of `file_count` over all accepted snapshots of
that language (including ones without library entries). -/
theorem c1_amended (files : List (String × Option RawSnapshot)) :
    ((aggregate_snapshots files).map (fun e => e.programming_language)).Nodup
    ∧ (∀ lang : String,
        (∃ e ∈ aggregate_snapshots files, e.programming_language = lang) ↔
          ∃ j ∈ parsedOf files, ∃ fc vlibs,
            validView j = some (lang, fc, vlibs) ∧ vlibs ≠ [])
    ∧ ∀ e ∈ aggregate_snapshots files,
        e.file_count = fcSum (parsedOf files) e.programming_language := by
  have hperm :
      (aggregateParsed (parsedOf files)).Perm (overallData (aggStateOf (parsedOf files))) :=
    stableSortDesc_perm _ _
  simp only [aggregate_snapshots]
  refine ⟨?_, ?_, ?_⟩
  · have hmap := hperm.map (fun e => e.programming_language)
    rw [hmap.nodup_iff, overallData_map_lang, aggKeys]
    exact nodup_firstOrder _
  · intro lang
    constructor
    · rintro ⟨e, he, hl⟩
      have he2 := mem_aggregateParsed.mp he
      have : lang ∈ (overallData (aggStateOf (parsedOf files))).map
          (fun e => e.programming_language) :=
        List.mem_map.mpr ⟨e, he2, hl⟩
      rw [overallData_map_lang, aggKeys, mem_firstOrder, mem_langStream] at this
      exact this
    · intro hex
      have : lang ∈ (overallData (aggStateOf (parsedOf files))).map
          (fun e => e.programming_language) := by
        rw [overallData_map_lang, aggKeys, mem_firstOrder, mem_langStream]
        exact hex
      obtain ⟨e, he, hl⟩ := List.mem_map.mp this
      exact ⟨e, mem_aggregateParsed.mpr he, hl⟩
  · intro e he
    have he2 := mem_aggregateParsed.mp he
    obtain ⟨pr, hpr, hmk⟩ := List.mem_map.mp he2
    have h1 : e.programming_language = pr.1 := by rw [← hmk]
    have h2 : e.file_count = lookupD (aggStateOf (parsedOf files)).file_counts pr.1 := by
      rw [← hmk]
    rw [h2, h1, aggFileCounts]

/-- C1 witness: a snapshot of language `Python` with one well-formed library
entry yields a `python` report entry. -/
theorem c1_amended_witness :
    ∃ e ∈ aggregate_snapshots
        [("p_snapshot_2.json", some ⟨some ("Python"), some 2, some [RawLib.good ("os") 3]⟩)],
      e.programming_language = "python" :=
  ((c1_amended
      [("p_snapshot_2.json", some ⟨some ("Python"), some 2, some [RawLib.good ("os") 3]⟩)]).2.1
    ("python")).mpr
    ⟨some ⟨some ("Python"), some 2, some [RawLib.good ("os") 3]⟩, by decide, 2, [("os", 3)],
      by decide, by decide⟩

/-! ### Claim C7 -/

/-- C7, counterexample.  Language `a` is first encountered in the first
snapshot (file count 1, no libraries), `b` in the second; both end with a
total file count of 1.  First-encountered order is `a` before `b`, but the
report lists `b` before `a`: a language enters `imports_agg` (whose
insertion order is the sort's tie-break) only when its first well-formed
library entry arrives, which for `a` happens only in the third snapshot. -/
theorem c7_counterexample :
    aggregate_snapshots
        [("s1_snapshot_1.json", some ⟨some ("A"), some 1, some []⟩),
         ("s2_snapshot_1.json", some ⟨some ("B"), some 1, some [RawLib.good ("x") 1]⟩),
         ("s3_snapshot_1.json", some ⟨some ("A"), some 0, some [RawLib.good ("y") 1]⟩)] =
      [{ programming_language := "b", libraries_used := [("x", 1)], file_count := 1 },
       { programming_language := "a", libraries_used := [("y", 1)], file_count := 1 }] := by
  decide

/-- C7, amended: the report is sorted descending by `file_count`, and two
languages with equal `file_count` retain the relative order in which each
language first contributed a well-formed library entry (the insertion
order of `imports_agg`), which matches first-encountered order only when
every language's first accepted snapshot already carries a library entry;
within each language, the `(library, count)` pairs are sorted descending
by count, ties preserving the order in which each library name was first
seen among that language's accepted snapshots. -/
theorem c7_amended (files : List (String × Option RawSnapshot)) :
    (aggregate_snapshots files).Pairwise (fun a b => b.file_count ≤ a.file_count)
    ∧ (∀ c : Nat,
        (aggregate_snapshots files).filter (fun e => decide (e.file_count = c)) =
          (overallData (aggStateOf (parsedOf files))).filter
            (fun e => decide (e.file_count = c)))
    ∧ (overallData (aggStateOf (parsedOf files))).map (fun e => e.programming_language) =
        firstOrder (langStream (parsedOf files))
    ∧ ∀ e ∈ aggregate_snapshots files,
        e.libraries_used.Pairwise (fun p q => q.2 ≤ p.2)
        ∧ (∀ c : Nat,
            e.libraries_used.filter (fun p => decide (p.2 = c)) =
              (lookupA (aggStateOf (parsedOf files)).imports_agg
                  e.programming_language).filter (fun p => decide (p.2 = c)))
        ∧ (lookupA (aggStateOf (parsedOf files)).imports_agg
              e.programming_language).map Prod.fst =
            firstOrder ((libStream (parsedOf files) e.programming_language).map Prod.fst) := by
  simp only [aggregate_snapshots]
  refine ⟨?_, ?_, ?_, ?_⟩
  · exact stableSortDesc_sorted (fun s : LangSummary => s.file_count) _
  · intro c
    exact stableSortDesc_filter (fun s : LangSummary => s.file_count) c _
  · rw [overallData_map_lang, aggKeys]
  · intro e he
    have he2 := mem_aggregateParsed.mp he
    obtain ⟨pr, hpr, hmk⟩ := List.mem_map.mp he2
    have hlang : e.programming_language = pr.1 := by rw [← hmk]
    have hlibs : e.libraries_used = stableSortDesc (fun p => p.2) pr.2 := by rw [← hmk]
    have hnd : ((aggStateOf (parsedOf files)).imports_agg.map Prod.fst).Nodup := by
      rw [aggKeys]
      exact nodup_firstOrder _
    have hlook : lookupA (aggStateOf (parsedOf files)).imports_agg pr.1 = pr.2 :=
      lookupA_of_mem_nodup hnd (by exact hpr)
    refine ⟨?_, ?_, ?_⟩
    · rw [hlibs]
      exact stableSortDesc_sorted (fun p : String × Nat => p.2) pr.2
    · intro c
      rw [hlibs, hlang, hlook]
      exact stableSortDesc_filter (fun p : String × Nat => p.2) c pr.2
    · rw [hlang, aggLookupA, keys_bumpFold]
      rfl

/-- C7 witness: on a concrete run the libraries of the sole entry are
sorted descending with the tie-break order established above. -/
theorem c7_amended_witness :
    ({ programming_language := "python", libraries_used := [("os", 2), ("sys", 1)],
       file_count := 1 } : LangSummary).libraries_used.Pairwise (fun p q => q.2 ≤ p.2) :=
  (((c7_amended
      [("w_snapshot_1.json", some ⟨some ("Python"), some 1,
        some [RawLib.good ("os") 2, RawLib.good ("sys") 1]⟩)]).2.2.2
    { programming_language := "python", libraries_used := [("os", 2), ("sys", 1)],
      file_count := 1 }
    (by decide))).1

/-! ### Claims C2 and C10 -/

theorem parsedOf_append (l1 l2 : List (String × Option RawSnapshot)) :
    parsedOf (l1 ++ l2) = parsedOf l1 ++ parsedOf l2 := by
  simp [parsedOf, List.filter_append]

theorem aggregateParsed_skip (l1 l2 : List (Option RawSnapshot)) (j : Option RawSnapshot)
    (h : validView j = none) :
    aggregateParsed (l1 ++ j :: l2) = aggregateParsed (l1 ++ l2) := by
  simp only [aggregateParsed, aggStateOf, List.foldl_append, List.foldl_cons,
    processFile_none _ h]

/-- A listed snapshot the aggregator rejects (or that fails the name filter)
leaves the report unchanged, wherever it sits in the listing. -/
theorem aggregate_snapshots_drop (l1 l2 : List (String × Option RawSnapshot)) (nm : String)
    (j : Option RawSnapshot) (h : validView j = none) :
    aggregate_snapshots (l1 ++ (nm, j) :: l2) = aggregate_snapshots (l1 ++ l2) := by
  simp only [aggregate_snapshots, parsedOf_append]
  by_cases hn : snapshotNameOk nm
  · have hp : parsedOf ((nm, j) :: l2) = j :: parsedOf l2 := by
      simp [parsedOf, List.filter_cons, hn]
    rw [hp]
    exact aggregateParsed_skip _ _ _ h
  · have hp : parsedOf ((nm, j) :: l2) = parsedOf l2 := by
      simp [parsedOf, List.filter_cons, hn]
    rw [hp]

/-- C2: a snapshot file that parses as JSON but is missing `file_count` (or
`programming_language`, or `external_libraries`) is excluded from
aggregation entirely — the aggregation of any listing containing it is the
aggregation with it removed (the failed `assert` is caught per file, so
the remaining snapshots aggregate as if the malformed file were absent;
totality of the Lean function is the no-propagated-error statement). -/
theorem c2_malformed_excluded (l1 l2 : List (String × Option RawSnapshot)) (nm : String)
    (s : RawSnapshot)
    (h : s.programming_language = none ∨ s.file_count = none ∨
      s.external_libraries = none) :
    aggregate_snapshots (l1 ++ (nm, some s) :: l2) = aggregate_snapshots (l1 ++ l2) := by
  apply aggregate_snapshots_drop
  rcases h with h | h | h
  · simp [validView, h]
  · cases hp : s.programming_language <;> simp [validView, hp, h]
  · cases hp : s.programming_language <;> cases hf : s.file_count <;>
      simp [validView, hp, hf, h]

/-- C2 witness: a concrete malformed snapshot (no `programming_language`)
next to a valid one is ignored. -/
theorem c2_malformed_excluded_witness :
    aggregate_snapshots
        [("good_snapshot_1.json", some ⟨some ("Go"), some 4, some [RawLib.good ("fmt") 1]⟩),
         ("bad_snapshot_1.json", some ⟨none, some 5, some [RawLib.good ("x") 9]⟩)] =
      aggregate_snapshots
        [("good_snapshot_1.json", some ⟨some ("Go"), some 4, some [RawLib.good ("fmt") 1]⟩)] :=
  c2_malformed_excluded
    [("good_snapshot_1.json", some ⟨some ("Go"), some 4, some [RawLib.good ("fmt") 1]⟩)] []
    ("bad_snapshot_1.json") ⟨none, some 5, some [RawLib.good ("x") 9]⟩ (Or.inl rfl)

/-- C10: a parsed snapshot whose `programming_language` is present but equal
to the empty string (with `file_count` and `external_libraries` present) is
skipped as falsy by `if programming_language:`, so the report with it in
the store equals the report without it. -/
theorem c10_empty_language_ignored (l1 l2 : List (String × Option RawSnapshot)) (nm : String)
    (fc : Nat) (libs : List RawLib) :
    aggregate_snapshots (l1 ++ (nm, some ⟨some (""), some fc, some libs⟩) :: l2) =
      aggregate_snapshots (l1 ++ l2) := by
  apply aggregate_snapshots_drop
  have hl : strLower ("") = "" := rfl
  simp [validView, hl]

/-! ### Lemmas: the scan loop -/

theorem scanStep_skip (cfg : ScanConfig) (st : ScanState) (f : FSFile)
    (h : classify cfg f.path f.name = .skip) : scanStep cfg st f = st := by
  cases hc : f.content <;> simp [scanStep, h, hc]

theorem scanStep_noread (cfg : ScanConfig) (st : ScanState) (f : FSFile)
    (h : f.content = none) : scanStep cfg st f = st := by
  cases hc : classify cfg f.path f.name <;> simp [scanStep, hc, h]

theorem scanStep_read (cfg : ScanConfig) (st : ScanState) (f : FSFile) (content : String)
    (h : classify cfg f.path f.name ≠ .skip) (hc : f.content = some content) :
    scanStep cfg st f =
      { project_sources := st.project_sources ++
          [{ file := f.name, full_path := f.path, source_code := content }]
        imports := extract_imports st.imports content (strLower (splitextExt f.name))
        detected_language :=
          match st.detected_language with
          | some l => some l
          | none => detect_programming_language f.name } := by
  cases hcl : classify cfg f.path f.name with
  | skip => exact absurd hcl h
  | includeSource => simp [scanStep, hcl, hc]
  | includeKeyFile => simp [scanStep, hcl, hc]

theorem scanStep_detected_some (cfg : ScanConfig) (st : ScanState) (f : FSFile) (l : String)
    (h : st.detected_language = some l) :
    (scanStep cfg st f).detected_language = some l := by
  by_cases hcl : classify cfg f.path f.name = .skip
  · rw [scanStep_skip cfg st f hcl, h]
  · cases hc : f.content with
    | none => rw [scanStep_noread cfg st f hc, h]
    | some content => rw [scanStep_read cfg st f content hcl hc]; simp [h]

theorem fold_detected_some (cfg : ScanConfig) (files : List FSFile) (st : ScanState)
    (l : String) (h : st.detected_language = some l) :
    (files.foldl (scanStep cfg) st).detected_language = some l := by
  induction files generalizing st with
  | nil => exact h
  | cons f rest ih =>
    rw [List.foldl_cons]
    exact ih (scanStep cfg st f) (scanStep_detected_some cfg st f l h)

theorem fold_detected_none (cfg : ScanConfig) (files : List FSFile) (st : ScanState)
    (h : st.detected_language = none) :
    (files.foldl (scanStep cfg) st).detected_language = firstLang cfg files := by
  induction files generalizing st with
  | nil => simpa [firstLang] using h
  | cons f rest ih =>
    rw [List.foldl_cons]
    by_cases hp : isProcessed cfg f = true
    · have hcl : classify cfg f.path f.name ≠ .skip := by
        simp [isProcessed] at hp
        exact hp.1
      obtain ⟨content, hc⟩ : ∃ c, f.content = some c := by
        simp [isProcessed, Option.isSome_iff_exists] at hp
        exact hp.2
      rw [scanStep_read cfg st f content hcl hc]
      cases hd : detect_programming_language f.name with
      | some l =>
        rw [fold_detected_some cfg rest _ l (by simp [h, hd])]
        simp [firstLang, List.filter_cons, hp, List.filterMap_cons, hd]
      | none =>
        rw [ih _ (by simp [h, hd])]
        simp [firstLang, List.filter_cons, hp, List.filterMap_cons, hd]
    · have hstep : scanStep cfg st f = st := by
        by_cases hcl : classify cfg f.path f.name = .skip
        · exact scanStep_skip cfg st f hcl
        · cases hc : f.content with
          | none => exact scanStep_noread cfg st f hc
          | some content =>
            exfalso
            exact hp (by simp [isProcessed, hcl, hc])
      rw [hstep, ih st h]
      have hp2 : isProcessed cfg f = false := by
        cases hb : isProcessed cfg f
        · rfl
        · exact absurd hb hp
      simp [firstLang, List.filter_cons, hp2]

/-- The detected language of a scan is the first hit of the extension table
over the processed files, `unknown` when there is none. -/
theorem scan_language (cfg : ScanConfig) (files : List FSFile) :
    (generate_context_data cfg files).programming_language =
      (firstLang cfg files).getD ("unknown") := by
  simp only [generate_context_data]
  rw [fold_detected_none cfg files ⟨[], [], none⟩ rfl]

theorem lookup_mem_values (l : List (String × String)) (e v : String)
    (h : l.lookup e = some v) : v ∈ l.map Prod.snd := by
  induction l with
  | nil => cases h
  | cons p r ih =>
    obtain ⟨pk, pv⟩ := p
    by_cases hk : pk = e
    · subst hk
      simp [List.lookup] at h
      simp [h]
    · have hne : (e == pk) = false := beq_eq_false_iff_ne.mpr (fun hh => hk hh.symm)
      simp [List.lookup, hne] at h
      simp [ih h]

theorem head?_append_of_some {α : Type} {xs ys : List α} {x : α}
    (h : xs.head? = some x) : (xs ++ ys).head? = some x := by
  cases xs with
  | nil => cases h
  | cons a t => simpa using h

theorem firstLang_append (cfg : ScanConfig) (files more : List FSFile)
    (h : (firstLang cfg files).isSome = true) :
    firstLang cfg (files ++ more) = firstLang cfg files := by
  obtain ⟨l, hl⟩ := Option.isSome_iff_exists.mp h
  have : firstLang cfg (files ++ more) = some l := by
    simp only [firstLang, List.filter_append, List.filterMap_append]
    exact head?_append_of_some (by simpa [firstLang] using hl)
  rw [this, hl]

/-! ### Claim C3 -/

/-- C3, counterexample.  Scanning a project holding one Python file writes
`programming_language = "Python"` into the snapshot: the value comes
straight from the `language_extensions` table, whose entries are
capitalized — it is neither a lowercase tag nor `"unknown"`. -/
theorem c3_counterexample :
    (generate_context_data defaultScanConfig
        [⟨"/p/b.py", "b.py", some ("")⟩]).programming_language = "Python"
    ∧ strLower ("Python") ≠ "Python"
    ∧ ("Python" : String) ≠ "unknown" := by
  refine ⟨by decide, by decide, by decide⟩

/-- C3, amended: the `programming_language` field written into the snapshot
is either `"unknown"` or one of the (capitalized) language names of the
`language_extensions` table, e.g. `"Python"`; the lowercase normalization
happens only later, in the aggregator. -/
theorem c3_amended (cfg : ScanConfig) (files : List FSFile) :
    (generate_context_data cfg files).programming_language = "unknown"
    ∨ (generate_context_data cfg files).programming_language ∈
        language_extensions.map Prod.snd := by
  rw [scan_language]
  cases hf : firstLang cfg files with
  | none => exact Or.inl rfl
  | some l =>
    right
    have hl : l ∈ (files.filter (isProcessed cfg)).filterMap
        (fun f => detect_programming_language f.name) := by
      have hmem : l ∈ ((files.filter (isProcessed cfg)).filterMap
          (fun f => detect_programming_language f.name)).head? := by
        simp [firstLang] at hf
        simp [hf]
      exact List.mem_of_mem_head? hmem
    obtain ⟨f, _, hdet⟩ := List.mem_filterMap.mp hl
    simpa using lookup_mem_values language_extensions (splitextExt f.name) l hdet

/-! ### Claim C4 -/

/-- C4: language detection is first-match over the processed files (files
whose extension is not in the table — and skipped or unreadable files —
neither set nor change it), the detected language never changes once set
(scanning any further files keeps it), and on the concrete walk order
`a.json`, `b.py`, `c.js` the detected language is Python — the table value
`"Python"`, whose lowercase form is the spec's `"python"` — not unknown
and not JavaScript. -/
theorem c4_first_match (cfg : ScanConfig) (files : List FSFile) :
    ((generate_context_data cfg files).programming_language =
      (firstLang cfg files).getD ("unknown"))
    ∧ (∀ more : List FSFile, (firstLang cfg files).isSome = true →
        (generate_context_data cfg (files ++ more)).programming_language =
          (generate_context_data cfg files).programming_language)
    ∧ ((generate_context_data defaultScanConfig
          [⟨"/p/a.json", "a.json", some ("")⟩, ⟨"/p/b.py", "b.py", some ("")⟩,
           ⟨"/p/c.js", "c.js", some ("")⟩]).programming_language = "Python"
        ∧ strLower ("Python") = "python"
        ∧ ("Python" : String) ≠ "unknown" ∧ ("Python" : String) ≠ "JavaScript") := by
  refine ⟨scan_language cfg files, ?_, by decide, by decide, by decide, by decide⟩
  intro more h
  rw [scan_language, scan_language, firstLang_append cfg files more h]

/-- C4 witness: appending one more file to the concrete project does not
change the already-detected language. -/
theorem c4_first_match_witness :
    (generate_context_data defaultScanConfig
        ([⟨"/p/a.json", "a.json", some ("")⟩, ⟨"/p/b.py", "b.py", some ("")⟩,
          ⟨"/p/c.js", "c.js", some ("")⟩] ++ [⟨"/p/d.rs", "d.rs", some ("")⟩])).programming_language =
      (generate_context_data defaultScanConfig
        [⟨"/p/a.json", "a.json", some ("")⟩, ⟨"/p/b.py", "b.py", some ("")⟩,
         ⟨"/p/c.js", "c.js", some ("")⟩]).programming_language :=
  (c4_first_match defaultScanConfig
      [⟨"/p/a.json", "a.json", some ("")⟩, ⟨"/p/b.py", "b.py", some ("")⟩,
       ⟨"/p/c.js", "c.js", some ("")⟩]).2.1
    [⟨"/p/d.rs", "d.rs", some ("")⟩] (by decide)

/-! ### Claim C5 -/

/-- C5: the classifier is total — for every configuration and every (path,
file name) pair it returns exactly one of Skip / IncludeSource /
IncludeKeyFile (it is a function into that three-valued type) — and binary
exclusion takes precedence: a file name that is not in the excluded-file
list but whose lowercased extension is in the binary-extension set is
skipped, whatever the include-extension set or key-file list say. -/
theorem c5_classifier_total (cfg : ScanConfig) (path name : String) :
    (classify cfg path name = .skip ∨ classify cfg path name = .includeSource ∨
      classify cfg path name = .includeKeyFile)
    ∧ (name ∉ cfg.avoid_files → strLower (splitextExt name) ∈ BINARY_EXTENSIONS →
        classify cfg path name = .skip) := by
  constructor
  · cases h : classify cfg path name
    · exact Or.inl rfl
    · exact Or.inr (Or.inl rfl)
    · exact Or.inr (Or.inr rfl)
  · intro h1 h2
    simp [classify, h1, h2]

/-- C5 witness: `.png` is a binary extension; even with `.png` in the
include-extension set and the file configured as a key file, the outcome
is Skip. -/
theorem c5_classifier_total_witness :
    ("pic.png" ∉ (⟨[], [".png"], ["pic.png"]⟩ : ScanConfig).avoid_files)
    ∧ strLower (splitextExt ("pic.png")) ∈ BINARY_EXTENSIONS
    ∧ classify ⟨[], [".png"], ["pic.png"]⟩ ("/p") ("pic.png") = .skip :=
  ⟨by decide, by decide,
    (c5_classifier_total ⟨[], [".png"], ["pic.png"]⟩ ("/p") ("pic.png")).2
      (by decide) (by decide)⟩

/-! ### Claim C6 -/

theorem natLog2F_spec : ∀ (fuel m : Nat), 1 ≤ m → m ≤ fuel →
    2 ^ natLog2F fuel m ≤ m ∧ m < 2 ^ (natLog2F fuel m + 1) := by
  intro fuel
  induction fuel with
  | zero => intro m h1 h2; omega
  | succ f ih =>
    intro m h1 h2
    by_cases hm : 2 ≤ m
    · have hrec : natLog2F (f + 1) m = natLog2F f (m / 2) + 1 := by
        simp [natLog2F, hm]
      obtain ⟨hL, hU⟩ := ih (m / 2) (by omega) (by omega)
      rw [hrec]
      have e1 : 2 ^ (natLog2F f (m / 2) + 1) = 2 * 2 ^ natLog2F f (m / 2) := by ring
      have e2 : 2 ^ (natLog2F f (m / 2) + 1 + 1) =
          2 * 2 ^ (natLog2F f (m / 2) + 1) := by ring
      constructor
      · rw [e1]
        omega
      · rw [e2, e1]
        omega
    · have hm1 : m = 1 := by omega
      subst hm1
      have : natLog2F (f + 1) 1 = 0 := by simp [natLog2F]
      rw [this]
      norm_num

theorem natLog2_spec (n : Nat) (h : 1 ≤ n) :
    2 ^ natLog2 n ≤ n ∧ n < 2 ^ (natLog2 n + 1) :=
  natLog2F_spec n n h le_rfl

theorem qExp_spec (q : ℚ) (hq : 0 < q) :
    (2:ℚ) ^ qExp q ≤ q ∧ q < 2 ^ (qExp q + 1) := by
  have hdef : qExp q =
      (natLog2 (q.num.toNat * 2 ^ (natLog2 q.den + 1) / q.den) : ℤ) -
        (natLog2 q.den + 1) := rfl
  set a := q.num.toNat with ha
  set b := q.den with hb
  set T := natLog2 b + 1 with hT
  obtain ⟨N, hNdef⟩ : ∃ n, a * 2 ^ T / b = n := ⟨_, rfl⟩
  rw [hNdef] at hdef
  set L := natLog2 N with hL
  have hb1 : 1 ≤ b := q.pos
  have hnum : 0 < q.num := Rat.num_pos.mpr hq
  have ha1 : 1 ≤ a := by omega
  have hbT : b < 2 ^ T := (natLog2_spec b hb1).2
  have hN1 : 1 ≤ N := by
    rw [← hNdef, Nat.one_le_div_iff (by omega : 0 < b)]
    calc b ≤ 2 ^ T := le_of_lt hbT
      _ ≤ a * 2 ^ T := Nat.le_mul_of_pos_left _ (by omega)
  obtain ⟨hNL, hNU⟩ := natLog2_spec N hN1
  have hdm : b * N + (a * 2 ^ T) % b = a * 2 ^ T := by
    rw [← hNdef]
    exact Nat.div_add_mod _ _
  have hmlt : (a * 2 ^ T) % b < b := Nat.mod_lt _ (by omega)
  have hlow : N * b ≤ a * 2 ^ T := by
    rw [← hNdef]
    exact Nat.div_mul_le_self _ _
  have hhigh : a * 2 ^ T < (N + 1) * b := by
    have h1 : (N + 1) * b = b * N + b := by ring
    omega
  have hbQ : (0:ℚ) < (b:ℚ) := by exact_mod_cast (by omega : 0 < b)
  have hq_eq : q = (a : ℚ) / (b : ℚ) := by
    rw [← Rat.num_div_den q]
    congr 1
    rw [ha]
    exact_mod_cast (Int.toNat_of_nonneg hnum.le).symm
  have hkey1 : (2:ℚ) ^ (L:ℕ) ≤ q * 2 ^ (T:ℕ) := by
    have h1 : ((2:ℚ) ^ (L:ℕ)) ≤ (N:ℚ) := by exact_mod_cast hNL
    have h2 : (N:ℚ) ≤ q * 2 ^ (T:ℕ) := by
      rw [hq_eq, div_mul_eq_mul_div, le_div_iff hbQ]
      exact_mod_cast hlow
    linarith
  have hkey2 : q * 2 ^ (T:ℕ) < 2 ^ (L + 1 : ℕ) := by
    have h2 : q * 2 ^ (T:ℕ) < (N:ℚ) + 1 := by
      rw [hq_eq, div_mul_eq_mul_div, div_lt_iff hbQ]
      exact_mod_cast hhigh
    have h3 : (N:ℚ) + 1 ≤ 2 ^ (L + 1 : ℕ) := by exact_mod_cast hNU
    linarith
  rw [hdef]
  constructor
  · rw [zpow_sub₀ (two_ne_zero), div_le_iff (by positivity)]
    push_cast [zpow_natCast]
    exact_mod_cast hkey1
  · rw [sub_add_eq_add_sub, zpow_sub₀ two_ne_zero, lt_div_iff (by positivity)]
    push_cast [zpow_natCast]
    exact_mod_cast hkey2

theorem qExp_eq (q : ℚ) (e : ℤ) (h1 : (2:ℚ) ^ e ≤ q) (h2 : q < 2 ^ (e + 1)) :
    qExp q = e := by
  have hq : 0 < q := lt_of_lt_of_le (zpow_pos two_pos e) h1
  obtain ⟨hL, hU⟩ := qExp_spec q hq
  by_contra hne
  rcases lt_or_gt_of_ne hne with hlt | hgt
  · have hz : (2:ℚ) ^ (qExp q + 1) ≤ 2 ^ e := zpow_le_zpow_right₀ one_le_two (by omega)
    linarith
  · have hz : (2:ℚ) ^ (e + 1) ≤ 2 ^ (qExp q) := zpow_le_zpow_right₀ one_le_two (by omega)
    linarith

theorem rIntNE_def (x : ℚ) :
    rIntNE x = if x - (⌊x⌋:ℚ) < 1 / 2 then ⌊x⌋
      else if 1 / 2 < x - (⌊x⌋:ℚ) then ⌊x⌋ + 1
      else if 2 ∣ ⌊x⌋ then ⌊x⌋ else ⌊x⌋ + 1 := rfl

theorem rIntNE_bounds (x : ℚ) : ⌊x⌋ ≤ rIntNE x ∧ rIntNE x ≤ ⌊x⌋ + 1 := by
  rw [rIntNE_def]
  split_ifs <;> omega

theorem rIntNE_mono {x y : ℚ} (h : x ≤ y) : rIntNE x ≤ rIntNE y := by
  rcases lt_or_eq_of_le (Int.floor_le_floor h) with hf | hf
  · have h1 := (rIntNE_bounds x).2
    have h2 := (rIntNE_bounds y).1
    omega
  · rw [rIntNE_def, rIntNE_def, ← hf]
    split_ifs <;> first | omega | (exfalso; linarith)

theorem rIntNE_eq_down (x : ℚ) (f : ℤ) (h1 : (f:ℚ) ≤ x) (h2 : x < (f:ℚ) + 1/2) :
    rIntNE x = f := by
  have hf : ⌊x⌋ = f := by
    rw [Int.floor_eq_iff]
    exact ⟨h1, by linarith⟩
  rw [rIntNE_def, hf, if_pos (by linarith : x - (f:ℚ) < 1/2)]

theorem rIntNE_intCast (n : ℤ) : rIntNE (n:ℚ) = n :=
  rIntNE_eq_down _ n le_rfl (by norm_num)

theorem roundD_nonpos_def (q : ℚ) (h : q ≤ 0) : roundD q = 0 := if_pos h

theorem roundD_pos_def (q : ℚ) (h : ¬ q ≤ 0) :
    roundD q = (rIntNE (q * 2 ^ ((52:ℤ) - qExp q)) : ℚ) * 2 ^ (qExp q - 52) := if_neg h

theorem roundD_eval (q : ℚ) (e : ℤ) (h1 : (2:ℚ) ^ e ≤ q) (h2 : q < 2 ^ (e + 1)) :
    roundD q = (rIntNE (q * 2 ^ ((52:ℤ) - e)) : ℚ) * 2 ^ (e - 52) := by
  have hq : 0 < q := lt_of_lt_of_le (zpow_pos two_pos e) h1
  rw [roundD_pos_def q (not_le.mpr hq), qExp_eq q e h1 h2]

theorem roundD_nonneg (q : ℚ) : 0 ≤ roundD q := by
  by_cases h : q ≤ 0
  · rw [roundD_nonpos_def q h]
  · rw [roundD_pos_def q h]
    push_neg at h
    have h1 : (0:ℚ) ≤ q * 2 ^ ((52:ℤ) - qExp q) := by positivity
    have h2 : 0 ≤ ⌊q * 2 ^ ((52:ℤ) - qExp q)⌋ := Int.floor_nonneg.mpr h1
    have h3 := (rIntNE_bounds (q * 2 ^ ((52:ℤ) - qExp q))).1
    have h4 : (0:ℚ) ≤ (rIntNE (q * 2 ^ ((52:ℤ) - qExp q)) : ℚ) := by
      exact_mod_cast le_trans h2 h3
    exact mul_nonneg h4 (zpow_pos two_pos _).le

theorem roundD_le_pow {x : ℚ} (e : ℤ) (h2 : x < 2 ^ (e + 1)) (hx : ¬ x ≤ 0)
    (he : qExp x = e) :
    roundD x ≤ 2 ^ (e + 1) := by
  rw [roundD_pos_def x hx, he]
  have ha1 : x * 2 ^ ((52:ℤ) - e) < 2 ^ (53:ℕ) := by
    calc x * 2 ^ ((52:ℤ) - e) < 2 ^ (e+1) * 2 ^ ((52:ℤ) - e) :=
          mul_lt_mul_of_pos_right h2 (zpow_pos two_pos _)
      _ = (2:ℚ) ^ ((53:ℕ):ℤ) := by
          rw [← zpow_add₀ (two_ne_zero : (2:ℚ) ≠ 0)]
          congr 1
          push_cast
          ring
      _ = 2 ^ (53:ℕ) := zpow_natCast 2 53
  have ha2 : x * 2 ^ ((52:ℤ) - e) < ((2 ^ 53 : ℤ) : ℚ) := by push_cast; exact ha1
  have hfl : ⌊x * 2 ^ ((52:ℤ) - e)⌋ < 2 ^ 53 := Int.floor_lt.mpr ha2
  have hb := (rIntNE_bounds (x * 2 ^ ((52:ℤ) - e))).2
  have hc : rIntNE (x * 2 ^ ((52:ℤ) - e)) ≤ 2 ^ 53 :=
    le_trans hb (Int.lt_iff_add_one_le.mp hfl)
  have hcQ : (rIntNE (x * 2 ^ ((52:ℤ) - e)) : ℚ) ≤ 2 ^ (53:ℕ) := by
    exact_mod_cast hc
  calc (rIntNE (x * 2 ^ ((52:ℤ) - e)) : ℚ) * 2 ^ (e - 52)
      ≤ 2 ^ (53:ℕ) * 2 ^ (e - 52) :=
        mul_le_mul_of_nonneg_right hcQ (zpow_pos two_pos _).le
    _ = 2 ^ (e + 1) := by
        rw [← zpow_natCast (2:ℚ) 53, ← zpow_add₀ (two_ne_zero : (2:ℚ) ≠ 0)]
        congr 1
        push_cast
        ring

theorem pow_le_roundD {y : ℚ} (f : ℤ) (h1 : 2 ^ f ≤ y) (hy : ¬ y ≤ 0)
    (hf : qExp y = f) :
    (2:ℚ) ^ f ≤ roundD y := by
  rw [roundD_pos_def y hy, hf]
  have ha1 : (2:ℚ) ^ (52:ℕ) ≤ y * 2 ^ ((52:ℤ) - f) := by
    calc (2:ℚ) ^ (52:ℕ) = 2 ^ ((52:ℕ):ℤ) := (zpow_natCast 2 52).symm
      _ = 2 ^ (f + ((52:ℤ) - f)) := by congr 1; push_cast; ring
      _ = 2 ^ f * 2 ^ ((52:ℤ) - f) := zpow_add₀ (two_ne_zero : (2:ℚ) ≠ 0) _ _
      _ ≤ y * 2 ^ ((52:ℤ) - f) :=
          mul_le_mul_of_nonneg_right h1 (zpow_pos two_pos _).le
  have ha2 : ((2 ^ 52 : ℤ) : ℚ) ≤ y * 2 ^ ((52:ℤ) - f) := by push_cast; exact ha1
  have hfl : (2 ^ 52 : ℤ) ≤ ⌊y * 2 ^ ((52:ℤ) - f)⌋ := Int.le_floor.mpr ha2
  have hb := (rIntNE_bounds (y * 2 ^ ((52:ℤ) - f))).1
  have hc : (2 ^ 52 : ℤ) ≤ rIntNE (y * 2 ^ ((52:ℤ) - f)) := le_trans hfl hb
  have hcQ : (2:ℚ) ^ (52:ℕ) ≤ (rIntNE (y * 2 ^ ((52:ℤ) - f)) : ℚ) := by
    exact_mod_cast hc
  calc (2:ℚ) ^ f = 2 ^ (52:ℕ) * 2 ^ (f - 52) := by
        rw [← zpow_natCast (2:ℚ) 52, ← zpow_add₀ (two_ne_zero : (2:ℚ) ≠ 0)]
        congr 1
        push_cast
        ring
    _ ≤ (rIntNE (y * 2 ^ ((52:ℤ) - f)) : ℚ) * 2 ^ (f - 52) :=
        mul_le_mul_of_nonneg_right hcQ (zpow_pos two_pos _).le

theorem roundD_mono {x y : ℚ} (h : x ≤ y) : roundD x ≤ roundD y := by
  by_cases hx : x ≤ 0
  · rw [roundD_nonpos_def x hx]
    exact roundD_nonneg y
  · have hy : ¬ y ≤ 0 := fun hy0 => hx (le_trans h hy0)
    have hx0 : 0 < x := not_le.mp hx
    have hy0 : 0 < y := not_le.mp hy
    obtain ⟨hx1, hx2⟩ := qExp_spec x hx0
    obtain ⟨hy1, hy2⟩ := qExp_spec y hy0
    have hef : qExp x ≤ qExp y := by
      by_contra hc
      push_neg at hc
      have hz : (2:ℚ) ^ (qExp y + 1) ≤ 2 ^ (qExp x) :=
        zpow_le_zpow_right₀ one_le_two (by omega)
      linarith
    rcases eq_or_lt_of_le hef with heq | hlt
    · rw [roundD_pos_def x hx, roundD_pos_def y hy, ← heq]
      have harg : x * 2 ^ ((52:ℤ) - qExp x) ≤ y * 2 ^ ((52:ℤ) - qExp x) :=
        mul_le_mul_of_nonneg_right h (zpow_pos two_pos _).le
      have hr := rIntNE_mono harg
      have hrQ : ((rIntNE (x * 2 ^ ((52:ℤ) - qExp x)) : ℚ)) ≤
          (rIntNE (y * 2 ^ ((52:ℤ) - qExp x)) : ℚ) := by exact_mod_cast hr
      exact mul_le_mul_of_nonneg_right hrQ (zpow_pos two_pos _).le
    · calc roundD x ≤ 2 ^ (qExp x + 1) := roundD_le_pow (qExp x) hx2 hx rfl
        _ ≤ 2 ^ qExp y := zpow_le_zpow_right₀ one_le_two (by omega)
        _ ≤ roundD y := pow_le_roundD (qExp y) hy1 hy rfl

theorem roundD_one : roundD (1:ℚ) = 1 := by
  rw [roundD_eval 1 0 (by norm_num) (by norm_num)]
  have h1 : (1:ℚ) * 2 ^ ((52:ℤ) - 0) = ((4503599627370496:ℤ):ℚ) := by
    rw [show ((52:ℤ) - 0) = ((52:ℕ):ℤ) by norm_num, zpow_natCast]
    norm_num
  rw [h1, rIntNE_intCast]
  rw [show ((0:ℤ) - 52) = -((52:ℕ):ℤ) by norm_num, zpow_neg, zpow_natCast]
  norm_num

theorem roundD_hundred : roundD (100:ℚ) = 100 := by
  rw [roundD_eval 100 6 (by norm_num) (by norm_num)]
  have h1 : (100:ℚ) * 2 ^ ((52:ℤ) - 6) = ((7036874417766400:ℤ):ℚ) := by
    rw [show ((52:ℤ) - 6) = ((46:ℕ):ℤ) by norm_num, zpow_natCast]
    norm_num
  rw [h1, rIntNE_intCast]
  rw [show ((6:ℤ) - 52) = -((46:ℕ):ℤ) by norm_num, zpow_neg, zpow_natCast]
  norm_num

theorem pyFloatPct_def (s t : ℕ) :
    pyFloatPct s t = ⌊roundD (roundD ((s:ℚ) / (t:ℚ)) * 100)⌋ := rfl

theorem div_le_div_of_le_nonneg {a b c : ℚ} (h : a ≤ b) (hc : 0 ≤ c) :
    a / c ≤ b / c := by
  rw [div_eq_mul_inv, div_eq_mul_inv]
  exact mul_le_mul_of_nonneg_right h (inv_nonneg.mpr hc)

theorem pyFloatPct_mono (s t n : ℕ) (h : s ≤ t) : pyFloatPct s n ≤ pyFloatPct t n := by
  rw [pyFloatPct_def, pyFloatPct_def]
  apply Int.floor_le_floor
  apply roundD_mono
  apply mul_le_mul_of_nonneg_right _ (by norm_num : (0:ℚ) ≤ 100)
  apply roundD_mono
  exact div_le_div_of_le_nonneg (by exact_mod_cast h) (Nat.cast_nonneg n)

theorem pyFloatPct_nonneg (s t : ℕ) : 0 ≤ pyFloatPct s t := by
  rw [pyFloatPct_def]
  exact Int.floor_nonneg.mpr (roundD_nonneg _)

theorem floor_le_hundred {x : ℚ} (h : x ≤ 100) : ⌊x⌋ ≤ 100 := by
  have := Int.floor_le_floor h
  simpa using this

theorem pyFloatPct_le_100 (s t : ℕ) (h : s ≤ t) (ht : 0 < t) : pyFloatPct s t ≤ 100 := by
  rw [pyFloatPct_def]
  apply floor_le_hundred
  have h1 : ((s:ℚ)) / ((t:ℚ)) ≤ 1 := by
    rw [div_le_one (by exact_mod_cast ht)]
    exact_mod_cast h
  have h2 : roundD ((s:ℚ) / (t:ℚ)) ≤ 1 := le_trans (roundD_mono h1) (le_of_eq roundD_one)
  have h3 : roundD ((s:ℚ) / (t:ℚ)) * 100 ≤ 100 := by linarith
  calc roundD (roundD ((s:ℚ) / (t:ℚ)) * 100) ≤ roundD 100 := roundD_mono h3
    _ = 100 := roundD_hundred

theorem pyFloatPct_self (t : ℕ) (ht : 0 < t) : pyFloatPct t t = 100 := by
  rw [pyFloatPct_def]
  have h1 : ((t:ℚ)) / ((t:ℚ)) = 1 := div_self (by exact_mod_cast ht.ne')
  rw [h1, roundD_one, one_mul, roundD_hundred]
  norm_num

theorem roundD_29_100 :
    roundD (29/100 : ℚ) = (5224175567749775 : ℚ) * 2 ^ ((-2:ℤ) - 52) := by
  rw [roundD_eval (29/100 : ℚ) (-2) (by norm_num) (by norm_num)]
  have harg : (29/100 : ℚ) * 2 ^ ((52:ℤ) - (-2:ℤ)) = 522417556774977536/100 := by
    rw [show ((52:ℤ) - (-2:ℤ)) = ((54:ℕ):ℤ) by norm_num, zpow_natCast]
    norm_num
  rw [harg, rIntNE_eq_down (522417556774977536/100 : ℚ) 5224175567749775
    (by norm_num) (by push_cast; norm_num)]
  norm_num

theorem roundD_29_100_scaled :
    roundD (roundD (29/100 : ℚ) * 100) = (8162774324609023 : ℚ) * 2 ^ ((4:ℤ) - 52) := by
  have hv : roundD (29/100 : ℚ) * 100 = 522417556774977500 / 18014398509481984 := by
    rw [roundD_29_100]
    rw [show ((-2:ℤ) - 52) = -((54:ℕ):ℤ) by norm_num, zpow_neg, zpow_natCast]
    norm_num
  rw [hv]
  rw [roundD_eval _ 4 (by norm_num) (by norm_num)]
  rw [show ((52:ℤ) - (4:ℤ)) = ((48:ℕ):ℤ) by norm_num, zpow_natCast]
  rw [rIntNE_eq_down ((522417556774977500 / 18014398509481984 : ℚ) * 2 ^ (48:ℕ))
    8162774324609023 (by norm_num) (by push_cast; norm_num)]
  norm_num

theorem pyFloatPct_29_100 : pyFloatPct 29 100 = 28 := by
  rw [pyFloatPct_def]
  have hc : ((29:ℕ):ℚ) / ((100:ℕ):ℚ) = 29/100 := by norm_num
  rw [hc, roundD_29_100_scaled]
  rw [show ((4:ℤ) - 52) = -((48:ℕ):ℤ) by norm_num, zpow_neg, zpow_natCast]
  rw [Int.floor_eq_iff]
  constructor
  · push_cast
    norm_num
  · push_cast
    norm_num

theorem progressTrace_step_eq (total : Nat) (outcomes : List Bool) :
    progressTrace total outcomes
      = (outcomes.foldl (progressStep total) ((0 : Nat), ([] : List Int))).2 := rfl

theorem progressTrace_aux (total : Nat) (ht : 0 < total) :
    ∀ (outcomes : List Bool) (s : Nat) (acc : List Int),
      (outcomes.foldl (progressStep total) (s, acc)).2
        = acc ++ (List.range outcomes.length).map (fun k => pyFloatPct (s + k + 1) total) := by
  intro outcomes
  induction outcomes with
  | nil =>
    intro s acc
    simp
  | cons b bs ih =>
    intro s acc
    have hstep : progressStep total (s, acc) b
        = (s + 1, acc ++ [pyFloatPct (s + 1) total]) := by
      show (s + 1, acc ++ (if total > 0 then [pyFloatPct (s + 1) total] else []))
          = (s + 1, acc ++ [pyFloatPct (s + 1) total])
      rw [if_pos ht]
    rw [List.foldl_cons, hstep, ih (s + 1) (acc ++ [pyFloatPct (s + 1) total])]
    rw [List.length_cons, List.range_succ_eq_map, List.map_cons, List.map_map]
    have hfun : (fun k => pyFloatPct (s + 1 + k + 1) total)
        = (fun k => pyFloatPct (s + k + 1) total) ∘ Nat.succ := by
      funext k
      show pyFloatPct (s + 1 + k + 1) total = pyFloatPct (s + (k + 1) + 1) total
      have he : s + 1 + k + 1 = s + (k + 1) + 1 := by omega
      rw [he]
    rw [hfun]
    simp [List.append_assoc]

theorem progressTrace_closed (total : Nat) (outcomes : List Bool) (ht : 0 < total) :
    progressTrace total outcomes
      = (List.range outcomes.length).map (fun k => pyFloatPct (k + 1) total) := by
  rw [progressTrace_step_eq, progressTrace_aux total ht outcomes 0 []]
  have hfun : (fun k => pyFloatPct (0 + k + 1) total)
      = (fun k => pyFloatPct (k + 1) total) := by
    funext k
    have he : 0 + k + 1 = k + 1 := by omega
    rw [he]
  rw [hfun, List.nil_append]

/-- Claim C8 is false as stated: the reported percentage is
`int((completed_projects / total_projects) * 100)` computed in IEEE-754
double precision, not the exact truncation of `completed * 100 / total`.
With 100 projects the 29th report is 28, while exact truncation gives
`29 * 100 / 100 = 29`. -/
theorem c8_counterexample :
    (progressTrace 100 (List.replicate 100 true))[28]? = some 28
    ∧ (29 * 100) / 100 = 29 := by
  constructor
  · rw [progressTrace_closed 100 (List.replicate 100 true) (by norm_num)]
    rw [List.length_replicate]
    simp [List.getElem?_map, List.getElem?_range, pyFloatPct_29_100]
  · norm_num

/-- Claim C8 (amended): over `n > 0` projects the progress callback fires
exactly once per project (success or failure alike), reporting
`int((completed / total) * 100)` as computed in double-precision floating
point (which can land one below the exact truncated percentage); the
sequence of reports is monotonically non-decreasing, lies in 0–100, and
ends at 100. -/
theorem c8_progress (outcomes : List Bool) (hne : outcomes ≠ []) :
    progressTrace outcomes.length outcomes
      = (List.range outcomes.length).map (fun k => pyFloatPct (k + 1) outcomes.length)
    ∧ (progressTrace outcomes.length outcomes).length = outcomes.length
    ∧ List.Pairwise (· ≤ ·) (progressTrace outcomes.length outcomes)
    ∧ (∀ v ∈ progressTrace outcomes.length outcomes, 0 ≤ v ∧ v ≤ 100)
    ∧ (progressTrace outcomes.length outcomes).getLast? = some 100 := by
  have ht : 0 < outcomes.length := List.length_pos.mpr hne
  have hcl := progressTrace_closed outcomes.length outcomes ht
  refine ⟨hcl, ?_, ?_, ?_, ?_⟩
  · rw [hcl]
    simp
  · rw [hcl]
    exact List.Pairwise.map _
      (fun a b hab => pyFloatPct_mono (a + 1) (b + 1) outcomes.length (by omega))
      (List.pairwise_lt_range _)
  · rw [hcl]
    intro v hv
    rw [List.mem_map] at hv
    obtain ⟨k, hk, rfl⟩ := hv
    rw [List.mem_range] at hk
    exact ⟨pyFloatPct_nonneg _ _,
      pyFloatPct_le_100 (k + 1) outcomes.length (by omega) ht⟩
  · rw [hcl]
    obtain ⟨m, hm⟩ : ∃ m, outcomes.length = m + 1 := ⟨outcomes.length - 1, by omega⟩
    rw [hm, List.range_succ, List.map_append]
    simp only [List.map_cons, List.map_nil]
    rw [List.getLast?_concat, pyFloatPct_self (m + 1) (by omega)]

/-- Witness for `c8_progress` at the concrete run `[true, false, true]`. -/
theorem c8_progress_witness :
    ([true, false, true] : List Bool) ≠ []
    ∧ (progressTrace ([true, false, true] : List Bool).length [true, false, true]
         = (List.range ([true, false, true] : List Bool).length).map
             (fun k => pyFloatPct (k + 1) ([true, false, true] : List Bool).length)
       ∧ (progressTrace ([true, false, true] : List Bool).length
            [true, false, true]).length = ([true, false, true] : List Bool).length
       ∧ List.Pairwise (· ≤ ·)
           (progressTrace ([true, false, true] : List Bool).length [true, false, true])
       ∧ (∀ v ∈ progressTrace ([true, false, true] : List Bool).length
             [true, false, true], 0 ≤ v ∧ v ≤ 100)
       ∧ (progressTrace ([true, false, true] : List Bool).length
            [true, false, true]).getLast? = some 100) :=
  ⟨by decide, c8_progress [true, false, true] (by decide)⟩

/-! ### Claim C9 -/

theorem classify_not_avoid (cfg : ScanConfig) (path name : String)
    (h : classify cfg path name ≠ .skip) : name ∉ cfg.avoid_files := by
  intro hmem
  exact h (by simp [classify, hmem])

theorem scan_sources_avoid (cfg : ScanConfig) (files : List FSFile) (st : ScanState)
    (hst : ∀ rec ∈ st.project_sources, rec.file ∉ cfg.avoid_files) :
    ∀ rec ∈ (files.foldl (scanStep cfg) st).project_sources,
      rec.file ∉ cfg.avoid_files := by
  induction files generalizing st with
  | nil => exact hst
  | cons f rest ih =>
    rw [List.foldl_cons]
    refine ih (scanStep cfg st f) ?_
    by_cases hcl : classify cfg f.path f.name = .skip
    · rw [scanStep_skip cfg st f hcl]
      exact hst
    · cases hc : f.content with
      | none =>
        rw [scanStep_noread cfg st f hc]
        exact hst
      | some content =>
        rw [scanStep_read cfg st f content hcl hc]
        intro rec hrec
        rcases List.mem_append.mp hrec with hold | hnew
        · exact hst rec hold
        · have : rec.file = f.name := by
            simp at hnew
            rw [hnew]
          rw [this]
          exact classify_not_avoid cfg f.path f.name hcl

/-- C9: under the default configuration `Dockerfile` and `Makefile` are both
in the excluded-file list and in the key-file list; the excluded-file check
runs first, so any file with either name is classified Skip and no File
Record with either name ever enters `project_sources`. -/
theorem c9_dockerfile_makefile :
    ("Dockerfile" ∈ COMMON_AVOID_FILES ∧ "Dockerfile" ∈ KEY_FILES ∧
      "Makefile" ∈ COMMON_AVOID_FILES ∧ "Makefile" ∈ KEY_FILES)
    ∧ (∀ path : String, classify defaultScanConfig path ("Dockerfile") = .skip ∧
        classify defaultScanConfig path ("Makefile") = .skip)
    ∧ ∀ (files : List FSFile),
        ∀ rec ∈ (generate_context_data defaultScanConfig files).project_sources,
          rec.file ≠ "Dockerfile" ∧ rec.file ≠ "Makefile" := by
  refine ⟨⟨by decide, by decide, by decide, by decide⟩, ?_, ?_⟩
  · intro path
    have hd : ("Dockerfile" : String) ∈ defaultScanConfig.avoid_files := by decide
    have hm : ("Makefile" : String) ∈ defaultScanConfig.avoid_files := by decide
    exact ⟨by simp [classify, hd], by simp [classify, hm]⟩
  · intro files rec hrec
    simp only [generate_context_data] at hrec
    have hna := scan_sources_avoid defaultScanConfig files ⟨[], [], none⟩
      (by intro rec2 h2; cases h2) rec hrec
    constructor
    · intro heq
      exact hna (by rw [heq]; decide)
    · intro heq
      exact hna (by rw [heq]; decide)

/-- C9 witness: a walked file named `Dockerfile` produces no File Record. -/
theorem c9_dockerfile_makefile_witness :
    ({ file := "Dockerfile", full_path := "/p/Dockerfile", source_code := "" } : FileRecord) ∉
      (generate_context_data defaultScanConfig
        [⟨"/p/Dockerfile", "Dockerfile", some ("")⟩]).project_sources :=
  fun hmem => (c9_dockerfile_makefile.2.2 [⟨"/p/Dockerfile", "Dockerfile", some ("")⟩]
    { file := "Dockerfile", full_path := "/p/Dockerfile", source_code := "" } hmem).1 rfl
